import Mathlib

/-!
# Verification of the `ed` ADT library (manuel-freire/ed)

Shallow embedding of the C++ teaching containers in `src/adts/` and proofs
about the claims of the specification.

Conventions used throughout:

* C++ raw pointers to nodes become inductive trees (for the value-level
  semantics) or explicit heap addresses (for the reference-counting model of
  `BinTree.h`, which is the one place where object identity is observable).
* Machine integers (`int`, `unsigned int`) hold small counts here (sizes,
  reference counts); they are modelled as `Nat`, overflow being unreachable
  for the finite structures considered.
* Fallible operations (those that `throw`) return `Except ADTError` or
  `Option`.
* `std::cin`-based token input is modelled as a list of tokens that the
  parser consumes from the front.
-/

/-- Error taxonomy of `Exceptions.h`, collapsed to the conditions the spec
names (empty-structure access, invalid iterator access, bad key). -/
inductive ADTError : Type where
  | emptyStructure : ADTError
  | invalidAccess : ADTError
  | badKey : ADTError
deriving DecidableEq, Repr

/-- One token of the parenthesized in-order input format: either a
punctuation character (`.`, `(`, `)`) read by `std::cin >> c`, or an
element value read by `std::cin >> elem`. -/
inductive InTok (α : Type) where
  | sym : Char → InTok α
  | val : α → InTok α
deriving DecidableEq, Repr

/-- A binary tree value: either empty or a node with element and two
children.  This is the value denoted by a `BinTree`/`BinTreeSmart` handle
(the unfolding of its node graph). -/
inductive BinTree (α : Type) where
  | nil : BinTree α
  | node : BinTree α → α → BinTree α → BinTree α
deriving DecidableEq, Repr

namespace BinTree

/-- Number of (real) nodes of a tree.  Helper used for fuel and sizes. -/
def size : BinTree α → Nat
  | nil => 0
  | node l _ r => size l + size r + 1

/-- Root element, if any.  Helper for stating theorems. -/
def rootElem : BinTree α → Option α
  | nil => none
  | node _ e _ => some e

theorem size_pos_of_ne_nil {t : BinTree α} (h : t ≠ nil) : 0 < t.size := by
  cases t with
  | nil => exact absurd rfl h
  | node l e r => simp only [size]; omega

end BinTree

/-!
## §4.1 — `BinTree.h`: value-level semantics

Namespace `BT` embeds the public operations of the manual-refcount
`BinTree<T>`.  Structural sharing and reference counts are invisible at this
level (they are modelled separately for claim C1); every operation below is
the function the corresponding C++ member computes on the tree value.
-/

namespace BT

open BinTree

/-- `BinTree()`: the empty tree. -/
def emptyTree : BinTree α := BinTree.nil

/-- `BinTree(elem)`: leaf constructor. -/
def leaf (e : α) : BinTree α := BinTree.node BinTree.nil e BinTree.nil

/-- `BinTree(iz, elem, dr)`: composite constructor (children shared, not
copied; sharing is value-invisible). -/
def mk (l : BinTree α) (e : α) (r : BinTree α) : BinTree α := BinTree.node l e r

/-- `empty()`: true iff `_root == nullptr`. -/
def isEmpty : BinTree α → Bool
  | BinTree.nil => true
  | BinTree.node _ _ _ => false

/-- `elem()`: root element; throws `EmptyTreeException` on the empty tree. -/
def elem : BinTree α → Except ADTError α
  | BinTree.nil => .error .emptyStructure
  | BinTree.node _ e _ => .ok e

/-- `left()`: left subtree handle; throws on the empty tree. -/
def left : BinTree α → Except ADTError (BinTree α)
  | BinTree.nil => .error .emptyStructure
  | BinTree.node l _ _ => .ok l

/-- `right()`: right subtree handle; throws on the empty tree. -/
def right : BinTree α → Except ADTError (BinTree α)
  | BinTree.nil => .error .emptyStructure
  | BinTree.node _ _ r => .ok r

/-- `preOrderAux(root, acc)`: pushes the root, then recurses left, then
right, appending to the accumulator list (C++ `List::push_back`). -/
def preOrderAux : BinTree α → List α → List α
  | BinTree.nil, acc => acc
  | BinTree.node l e r, acc => preOrderAux r (preOrderAux l (acc ++ [e]))

/-- `preOrder()`. -/
def preOrder (t : BinTree α) : List α := preOrderAux t []

/-- `inOrderAux(root, acc)`. -/
def inOrderAux : BinTree α → List α → List α
  | BinTree.nil, acc => acc
  | BinTree.node l e r, acc => inOrderAux r (inOrderAux l acc ++ [e])

/-- `inOrder()`. -/
def inOrder (t : BinTree α) : List α := inOrderAux t []

/-- `postOrderAux(root, acc)`. -/
def postOrderAux : BinTree α → List α → List α
  | BinTree.nil, acc => acc
  | BinTree.node l e r, acc => postOrderAux r (postOrderAux l acc) ++ [e]

/-- `postOrder()`. -/
def postOrder (t : BinTree α) : List α := postOrderAux t []

/-- Total size of the trees waiting in the BFS queue (termination measure
for `levels`). -/
def qsize : List (BinTree α) → Nat
  | [] => 0
  | t :: ts => t.size + qsize ts

theorem qsize_append (a b : List (BinTree α)) :
    qsize (a ++ b) = qsize a + qsize b := by
  induction a with
  | nil => simp [qsize]
  | cons t ts ih => simp [qsize, ih]; omega

/-- The children pushed by one BFS step: a child is enqueued only when its
pointer is non-null. -/
def pushChildren (l r : BinTree α) : List (BinTree α) :=
  (match l with | BinTree.nil => [] | _ => [l]) ++
  (match r with | BinTree.nil => [] | _ => [r])

theorem qsize_pushChildren (l r : BinTree α) :
    qsize (pushChildren l r) ≤ l.size + r.size := by
  cases l <;> cases r <;> simp [pushChildren, qsize, BinTree.size]

/-- The `while (!pending.empty())` loop of `levels()`: pop the front node,
append its element to the result, enqueue its non-null children. -/
def levelsAux : List (BinTree α) → List α → List α
  | [], acc => acc
  | BinTree.nil :: pending, acc => levelsAux pending acc
  | BinTree.node l e r :: pending, acc =>
      levelsAux (pending ++ pushChildren l r) (acc ++ [e])
termination_by q _ => (qsize q, q.length)
decreasing_by
  · simp [qsize, BinTree.size]
    exact Prod.Lex.right _ (Nat.lt_succ_self _)
  · apply Prod.Lex.left
    simp [qsize, qsize_append, BinTree.size]
    have := qsize_pushChildren l r
    omega

/-- `levels()`: breadth-first traversal via a FIFO queue. -/
def levels : BinTree α → List α
  | BinTree.nil => []
  | BinTree.node l e r => levelsAux [BinTree.node l e r] []

/-- `nodeCountAux`. -/
def nodeCountAux : BinTree α → Nat
  | BinTree.nil => 0
  | BinTree.node l _ r => 1 + nodeCountAux l + nodeCountAux r

/-- `nodeCount()`. -/
def nodeCount (t : BinTree α) : Nat := nodeCountAux t

/-- `depthAux`. -/
def depthAux : BinTree α → Nat
  | BinTree.nil => 0
  | BinTree.node l _ r =>
      let leftDepth := depthAux l
      let rightDepth := depthAux r
      if leftDepth > rightDepth then 1 + leftDepth else 1 + rightDepth

/-- `depth()`. -/
def depth (t : BinTree α) : Nat := depthAux t

/-- `leafCountAux`. -/
def leafCountAux : BinTree α → Nat
  | BinTree.nil => 0
  | BinTree.node BinTree.nil _ BinTree.nil => 1
  | BinTree.node l _ r => leafCountAux l + leafCountAux r

/-- `leafCount()`. -/
def leafCount (t : BinTree α) : Nat := leafCountAux t

/-- `compareAux(r1, r2)`: structural equality of node graphs.  The C++
`r1 == r2` pointer short-circuit only fires when both handles alias one
node, in which case the structural recursion below returns `true` as well,
so it is value-invisible and omitted here. -/
def compareAux [DecidableEq α] : BinTree α → BinTree α → Bool
  | BinTree.nil, BinTree.nil => true
  | BinTree.nil, BinTree.node _ _ _ => false
  | BinTree.node _ _ _, BinTree.nil => false
  | BinTree.node l1 e1 r1, BinTree.node l2 e2 r2 =>
      decide (e1 = e2) && compareAux l1 l2 && compareAux r1 r2

/-- `operator==`. -/
def beq [DecidableEq α] (t1 t2 : BinTree α) : Bool := compareAux t1 t2

/-- `fromPreOrderInput(emptyRep)` reading from a token list instead of
`std::cin`; fuel-indexed (the fuel only pays for recursion depth, one unit
per consumed token suffices).  Returns the built tree and the unconsumed
input, or `none` if the stream is exhausted early. -/
def fromPreOrderAux [DecidableEq α] (emptyRep : α) :
    Nat → List α → Option (BinTree α × List α)
  | _, [] => none
  | 0, _ :: _ => none
  | fuel + 1, e :: input =>
    if e = emptyRep then some (BinTree.nil, input)
    else
      match fromPreOrderAux emptyRep fuel input with
      | none => none
      | some (hi, input1) =>
        match fromPreOrderAux emptyRep fuel input1 with
        | none => none
        | some (hd, input2) => some (BinTree.node hi e hd, input2)

/-- `fromPreOrderInput` at the top level: the stream length bounds the
recursion depth. -/
def fromPreOrderInput [DecidableEq α] (emptyRep : α) (input : List α) :
    Option (BinTree α × List α) :=
  fromPreOrderAux emptyRep input.length input

/-- `fromInOrderInput()` reading from a token list; `.` is empty, a node is
`( <left> <elem> <right> )`.  A failed `assert` or a malformed/exhausted
stream is modelled as `none`. -/
def fromInOrderAux : Nat → List (InTok α) → Option (BinTree α × List (InTok α))
  | _, [] => none
  | 0, _ :: _ => none
  | fuel + 1, InTok.sym c :: input =>
    if c = '.' then some (BinTree.nil, input)
    else if c = '(' then
      match fromInOrderAux fuel input with
      | none => none
      | some (l, input1) =>
        match input1 with
        | InTok.val e :: input2 =>
          match fromInOrderAux fuel input2 with
          | none => none
          | some (r, input3) =>
            match input3 with
            | InTok.sym c2 :: input4 =>
                if c2 = ')' then some (BinTree.node l e r, input4) else none
            | _ => none
        | _ => none
    else none
  | _ + 1, InTok.val _ :: _ => none

/-- `fromInOrderInput` at the top level. -/
def fromInOrderInput (input : List (InTok α)) :
    Option (BinTree α × List (InTok α)) :=
  fromInOrderAux input.length input

end BT

section BTTests

example : BT.fromPreOrderInput "X" ["1", "2", "X", "X", "3", "X", "X"] =
    some (BinTree.node (BinTree.node BinTree.nil "2" BinTree.nil) "1"
      (BinTree.node BinTree.nil "3" BinTree.nil), []) := by decide

example : BT.inOrder (BinTree.node (BinTree.node BinTree.nil "2" BinTree.nil) "1"
    (BinTree.node BinTree.nil "3" BinTree.nil)) = ["2", "1", "3"] := by decide

example : BT.levels (BinTree.node (BinTree.node BinTree.nil 2 BinTree.nil) 1
    (BinTree.node BinTree.nil 3 BinTree.nil)) = [1, 2, 3] := by
  simp [BT.levels, BT.levelsAux, BT.pushChildren]

end BTTests

/-!
## §4.2 — `BinTreeSmart.h`: value-level semantics

Namespace `BTS` embeds the public operations of `BinTreeSmart<T>`, the
`shared_ptr`-based variant.  The definitions are translated from
`BinTreeSmart.h` independently of namespace `BT`; claim C4 compares the two.
-/

namespace BTS

/-- `BinTreeSmart()`: the empty tree. -/
def emptyTree : BinTree α := BinTree.nil

/-- `BinTreeSmart(elem)`: leaf constructor. -/
def leaf (e : α) : BinTree α := BinTree.node BinTree.nil e BinTree.nil

/-- `BinTreeSmart(left, elem, right)`: composite constructor. -/
def mk (l : BinTree α) (e : α) (r : BinTree α) : BinTree α := BinTree.node l e r

/-- `empty()`: true iff `_root == nullptr`. -/
def isEmpty : BinTree α → Bool
  | BinTree.nil => true
  | BinTree.node _ _ _ => false

/-- `elem()`. -/
def elem : BinTree α → Except ADTError α
  | BinTree.nil => .error .emptyStructure
  | BinTree.node _ e _ => .ok e

/-- `left()`. -/
def left : BinTree α → Except ADTError (BinTree α)
  | BinTree.nil => .error .emptyStructure
  | BinTree.node l _ _ => .ok l

/-- `right()`. -/
def right : BinTree α → Except ADTError (BinTree α)
  | BinTree.nil => .error .emptyStructure
  | BinTree.node _ _ r => .ok r

/-- `preOrderAux(root, acc)`. -/
def preOrderAux : BinTree α → List α → List α
  | BinTree.nil, acc => acc
  | BinTree.node l e r, acc => preOrderAux r (preOrderAux l (acc ++ [e]))

/-- `preOrder()`. -/
def preOrder (t : BinTree α) : List α := preOrderAux t []

/-- `inOrderAux(root, acc)`. -/
def inOrderAux : BinTree α → List α → List α
  | BinTree.nil, acc => acc
  | BinTree.node l e r, acc => inOrderAux r (inOrderAux l acc ++ [e])

/-- `inOrder()`. -/
def inOrder (t : BinTree α) : List α := inOrderAux t []

/-- `postOrderAux(root, acc)`. -/
def postOrderAux : BinTree α → List α → List α
  | BinTree.nil, acc => acc
  | BinTree.node l e r, acc => postOrderAux r (postOrderAux l acc) ++ [e]

/-- `postOrder()`. -/
def postOrder (t : BinTree α) : List α := postOrderAux t []

/-- Queue measure for `levels` (as in `BT.qsize`). -/
def qsize : List (BinTree α) → Nat
  | [] => 0
  | t :: ts => t.size + qsize ts

theorem qsize_append_smart (a b : List (BinTree α)) :
    qsize (a ++ b) = qsize a + qsize b := by
  induction a with
  | nil => simp [qsize]
  | cons t ts ih => simp [qsize, ih]; omega

/-- Children enqueued by one BFS step of `levels()` (non-null only). -/
def pushChildren (l r : BinTree α) : List (BinTree α) :=
  (match l with | BinTree.nil => [] | _ => [l]) ++
  (match r with | BinTree.nil => [] | _ => [r])

theorem qsize_pushChildren_smart (l r : BinTree α) :
    qsize (pushChildren l r) ≤ l.size + r.size := by
  cases l <;> cases r <;> simp [pushChildren, qsize, BinTree.size]

/-- The queue loop of `levels()`. -/
def levelsAux : List (BinTree α) → List α → List α
  | [], acc => acc
  | BinTree.nil :: pending, acc => levelsAux pending acc
  | BinTree.node l e r :: pending, acc =>
      levelsAux (pending ++ pushChildren l r) (acc ++ [e])
termination_by q _ => (qsize q, q.length)
decreasing_by
  · simp [qsize, BinTree.size]
    exact Prod.Lex.right _ (Nat.lt_succ_self _)
  · apply Prod.Lex.left
    simp [qsize, qsize_append_smart, BinTree.size]
    have := qsize_pushChildren_smart l r
    omega

/-- `levels()`. -/
def levels : BinTree α → List α
  | BinTree.nil => []
  | BinTree.node l e r => levelsAux [BinTree.node l e r] []

/-- `nodeCountAux`. -/
def nodeCountAux : BinTree α → Nat
  | BinTree.nil => 0
  | BinTree.node l _ r => 1 + nodeCountAux l + nodeCountAux r

/-- `nodeCount()`. -/
def nodeCount (t : BinTree α) : Nat := nodeCountAux t

/-- `depthAux`. -/
def depthAux : BinTree α → Nat
  | BinTree.nil => 0
  | BinTree.node l _ r =>
      let leftDepth := depthAux l
      let rightDepth := depthAux r
      if leftDepth > rightDepth then 1 + leftDepth else 1 + rightDepth

/-- `depth()`. -/
def depth (t : BinTree α) : Nat := depthAux t

/-- `leafCountAux`. -/
def leafCountAux : BinTree α → Nat
  | BinTree.nil => 0
  | BinTree.node BinTree.nil _ BinTree.nil => 1
  | BinTree.node l _ r => leafCountAux l + leafCountAux r

/-- `leafCount()`. -/
def leafCount (t : BinTree α) : Nat := leafCountAux t

/-- `compareAux(r1, r2)` of `BinTreeSmart.h` (the `shared_ptr` identity
short-circuit is value-invisible, as in `BT.compareAux`). -/
def compareAux [DecidableEq α] : BinTree α → BinTree α → Bool
  | BinTree.nil, BinTree.nil => true
  | BinTree.nil, BinTree.node _ _ _ => false
  | BinTree.node _ _ _, BinTree.nil => false
  | BinTree.node l1 e1 r1, BinTree.node l2 e2 r2 =>
      decide (e1 = e2) && compareAux l1 l2 && compareAux r1 r2

/-- `operator==`. -/
def beq [DecidableEq α] (t1 t2 : BinTree α) : Bool := compareAux t1 t2

/-- `fromPreOrderInput(emptyRep)` over a token list. -/
def fromPreOrderAux [DecidableEq α] (emptyRep : α) :
    Nat → List α → Option (BinTree α × List α)
  | _, [] => none
  | 0, _ :: _ => none
  | fuel + 1, e :: input =>
    if e = emptyRep then some (BinTree.nil, input)
    else
      match fromPreOrderAux emptyRep fuel input with
      | none => none
      | some (hi, input1) =>
        match fromPreOrderAux emptyRep fuel input1 with
        | none => none
        | some (hd, input2) => some (BinTree.node hi e hd, input2)

/-- `fromPreOrderInput` at the top level. -/
def fromPreOrderInput [DecidableEq α] (emptyRep : α) (input : List α) :
    Option (BinTree α × List α) :=
  fromPreOrderAux emptyRep input.length input

/-- `fromInOrderInput()` over a token list. -/
def fromInOrderAux : Nat → List (InTok α) → Option (BinTree α × List (InTok α))
  | _, [] => none
  | 0, _ :: _ => none
  | fuel + 1, InTok.sym c :: input =>
    if c = '.' then some (BinTree.nil, input)
    else if c = '(' then
      match fromInOrderAux fuel input with
      | none => none
      | some (l, input1) =>
        match input1 with
        | InTok.val e :: input2 =>
          match fromInOrderAux fuel input2 with
          | none => none
          | some (r, input3) =>
            match input3 with
            | InTok.sym c2 :: input4 =>
                if c2 = ')' then some (BinTree.node l e r, input4) else none
            | _ => none
        | _ => none
    else none
  | _ + 1, InTok.val _ :: _ => none

/-- `fromInOrderInput` at the top level. -/
def fromInOrderInput (input : List (InTok α)) :
    Option (BinTree α × List (InTok α)) :=
  fromInOrderAux input.length input

end BTS

/-!
## Pre-order serialization (claim C3)

The repository has the pre-order *builder* (`fromPreOrderInput`) but no
pre-order token *output*; the round-trip claim supplies the serialization
format itself.
-/

/-- Modelled from the spec: the repository contains no pre-order token
output routine; §8 speaks of "serializing a tree via pre-order token output
with a sentinel", i.e. the stream the builder documents (root element first,
then the left subtree's stream, then the right subtree's stream, an empty
subtree written as the sentinel `emptyRep`). -/
def serializePre (emptyRep : α) : BinTree α → List α
  | BinTree.nil => [emptyRep]
  | BinTree.node l e r =>
      e :: (serializePre emptyRep l ++ serializePre emptyRep r)

/-- `t` does not contain `emptyRep` as a real element. -/
def noSentinel [DecidableEq α] (emptyRep : α) : BinTree α → Bool
  | BinTree.nil => true
  | BinTree.node l e r =>
      !decide (e = emptyRep) && noSentinel emptyRep l && noSentinel emptyRep r

theorem serializePre_length [DecidableEq α] (emptyRep : α) (t : BinTree α) :
    (serializePre emptyRep t).length = 2 * BT.nodeCount t + 1 := by
  induction t with
  | nil => simp [serializePre, BT.nodeCount, BT.nodeCountAux]
  | node l e r ihl ihr =>
    simp [serializePre, BT.nodeCount, BT.nodeCountAux] at *
    omega

theorem fromPreOrderAux_serializePre [DecidableEq α] (emptyRep : α)
    (t : BinTree α) (h : noSentinel emptyRep t = true) :
    ∀ (fuel : Nat) (rest : List α),
      (serializePre emptyRep t).length ≤ fuel →
      BT.fromPreOrderAux emptyRep fuel (serializePre emptyRep t ++ rest) =
        some (t, rest) := by
  induction t with
  | nil =>
    intro fuel rest hfuel
    match fuel with
    | f + 1 => simp [serializePre, BT.fromPreOrderAux]
  | node l e r ihl ihr =>
    intro fuel rest hfuel
    simp only [noSentinel, Bool.and_eq_true, Bool.not_eq_true',
      decide_eq_false_iff_not] at h
    obtain ⟨⟨he, hl⟩, hr⟩ := h
    simp only [serializePre, List.length_cons, List.length_append] at hfuel
    match fuel with
    | f + 1 =>
      have hfl : (serializePre emptyRep l).length ≤ f := by omega
      have hfr : (serializePre emptyRep r).length ≤ f := by omega
      simp only [serializePre, List.cons_append, BT.fromPreOrderAux,
        if_neg he, List.append_eq, List.append_assoc]
      rw [ihl hl f _ hfl]
      simp [ihr hr f rest hfr]

/-- C3: for every tree `T` with `n` real elements not containing the
sentinel, the pre-order serialization with that sentinel has exactly
`2*n + 1` tokens, and the pre-order builder consumes exactly those tokens
(leaving any trailing input untouched) and rebuilds a tree structurally
equal to `T`. -/
theorem claim_C3_preorder_roundtrip [DecidableEq α] (emptyRep : α)
    (t : BinTree α) (rest : List α) (h : noSentinel emptyRep t = true) :
    (serializePre emptyRep t).length = 2 * BT.nodeCount t + 1 ∧
    BT.fromPreOrderInput emptyRep (serializePre emptyRep t ++ rest) =
      some (t, rest) := by
  refine ⟨serializePre_length emptyRep t, ?_⟩
  apply fromPreOrderAux_serializePre emptyRep t h
  simp

/-- Witness for C3 at the concrete tree `node (leaf 2) 1 (leaf 3)` with
sentinel `0` and trailing input `[7]`. -/
theorem claim_C3_preorder_roundtrip_witness :
    noSentinel 0 (BinTree.node (BinTree.node BinTree.nil 2 BinTree.nil) 1
      (BinTree.node BinTree.nil 3 BinTree.nil)) = true ∧
    ((serializePre 0 (BinTree.node (BinTree.node BinTree.nil 2 BinTree.nil) 1
        (BinTree.node BinTree.nil 3 BinTree.nil))).length =
      2 * BT.nodeCount (BinTree.node (BinTree.node BinTree.nil 2 BinTree.nil) 1
        (BinTree.node BinTree.nil 3 BinTree.nil)) + 1 ∧
    BT.fromPreOrderInput 0 (serializePre 0
        (BinTree.node (BinTree.node BinTree.nil 2 BinTree.nil) 1
          (BinTree.node BinTree.nil 3 BinTree.nil)) ++ [7]) =
      some (BinTree.node (BinTree.node BinTree.nil 2 BinTree.nil) 1
        (BinTree.node BinTree.nil 3 BinTree.nil), [7])) :=
  ⟨by decide, claim_C3_preorder_roundtrip 0 _ [7] (by decide)⟩

/-!
## Structural equality (claim C6)
-/

/-- The element stored at a root-to-node path (`false` = descend left,
`true` = descend right); helper for stating "changing any single element". -/
def elemAtPath : BinTree α → List Bool → Option α
  | BinTree.nil, _ => none
  | BinTree.node _ e _, [] => some e
  | BinTree.node l _ _, false :: p => elemAtPath l p
  | BinTree.node _ _ r, true :: p => elemAtPath r p

/-- Replace the element stored at a path, keeping the shape; `none` if the
path leaves the tree. -/
def updateAtPath : BinTree α → List Bool → α → Option (BinTree α)
  | BinTree.nil, _, _ => none
  | BinTree.node l _ r, [], a => some (BinTree.node l a r)
  | BinTree.node l e r, false :: p, a =>
      (updateAtPath l p a).map (fun l' => BinTree.node l' e r)
  | BinTree.node l e r, true :: p, a =>
      (updateAtPath r p a).map (fun r' => BinTree.node l e r')

theorem BT.compareAux_eq_true_iff [DecidableEq α] (t1 t2 : BinTree α) :
    BT.compareAux t1 t2 = true ↔ t1 = t2 := by
  induction t1 generalizing t2 with
  | nil => cases t2 <;> simp [BT.compareAux]
  | node l1 e1 r1 ihl ihr =>
    cases t2 with
    | nil => simp [BT.compareAux]
    | node l2 e2 r2 =>
      simp [BT.compareAux, ihl, ihr]
      tauto

theorem BT.compareAux_update_ne [DecidableEq α] (t t' : BinTree α)
    (p : List Bool) (a : α) (hupd : updateAtPath t p a = some t')
    (hne : elemAtPath t p ≠ some a) : BT.compareAux t t' = false := by
  induction t generalizing p t' with
  | nil => simp [updateAtPath] at hupd
  | node l e r ihl ihr =>
    match p with
    | [] =>
      simp [updateAtPath] at hupd
      simp [elemAtPath] at hne
      subst hupd
      simp [BT.compareAux, hne]
    | false :: p =>
      simp only [updateAtPath, Option.map_eq_some'] at hupd
      obtain ⟨l', hl', rfl⟩ := hupd
      simp only [elemAtPath] at hne
      simp [BT.compareAux, ihl l' p hl' hne]
    | true :: p =>
      simp only [updateAtPath, Option.map_eq_some'] at hupd
      obtain ⟨r', hr', rfl⟩ := hupd
      simp only [elemAtPath] at hne
      simp [BT.compareAux, ihr r' p hr' hne]

/-- C6: tree equality is structural — `operator==` returns true exactly for
structurally equal trees (hence `T == T` always holds, and two independently
built trees of identical structure compare equal), and replacing any single
element by a different one breaks equality. -/
theorem claim_C6_structural_equality [DecidableEq α] :
    (∀ t1 t2 : BinTree α, BT.beq t1 t2 = true ↔ t1 = t2) ∧
    (∀ t : BinTree α, BT.beq t t = true) ∧
    (∀ (t t' : BinTree α) (p : List Bool) (a : α),
      updateAtPath t p a = some t' → elemAtPath t p ≠ some a →
        BT.beq t t' = false) := by
  refine ⟨fun t1 t2 => BT.compareAux_eq_true_iff t1 t2,
    fun t => (BT.compareAux_eq_true_iff t t).mpr rfl,
    fun t t' p a hupd hne => BT.compareAux_update_ne t t' p a hupd hne⟩

/-- Witness for C6 at a concrete tree and single-element change. -/
theorem claim_C6_structural_equality_witness :
    (BT.beq (BinTree.node BinTree.nil (1 : Nat) BinTree.nil)
        (BinTree.node BinTree.nil 1 BinTree.nil) = true ↔
      BinTree.node BinTree.nil (1 : Nat) BinTree.nil =
        BinTree.node BinTree.nil 1 BinTree.nil) ∧
    (updateAtPath (BinTree.node (BinTree.node BinTree.nil (2 : Nat)
        BinTree.nil) 1 BinTree.nil) [false] 9 =
      some (BinTree.node (BinTree.node BinTree.nil 9 BinTree.nil) 1
        BinTree.nil)) ∧
    (BT.beq (BinTree.node (BinTree.node BinTree.nil (2 : Nat) BinTree.nil) 1
        BinTree.nil)
      (BinTree.node (BinTree.node BinTree.nil 9 BinTree.nil) 1 BinTree.nil) =
        false) :=
  ⟨claim_C6_structural_equality.1 _ _, by decide,
    claim_C6_structural_equality.2.2 _ _ [false] 9 (by decide) (by decide)⟩

/-!
## The concrete example scenario (claim C9) and totality on the empty tree
(claim C10)
-/

/-- C9: building from the pre-order stream `1 2 X X 3 X X` with sentinel `X`
consumes the whole stream, and the resulting tree has 3 nodes, depth 2,
2 leaves, and in-order sequence `[2, 1, 3]`. -/
theorem claim_C9_example_scenario :
    BT.fromPreOrderInput "X" ["1", "2", "X", "X", "3", "X", "X"] =
      some (BinTree.node (BinTree.node BinTree.nil "2" BinTree.nil) "1"
        (BinTree.node BinTree.nil "3" BinTree.nil), []) ∧
    BT.nodeCount (BinTree.node (BinTree.node BinTree.nil "2" BinTree.nil) "1"
      (BinTree.node BinTree.nil "3" BinTree.nil)) = 3 ∧
    BT.depth (BinTree.node (BinTree.node BinTree.nil "2" BinTree.nil) "1"
      (BinTree.node BinTree.nil "3" BinTree.nil)) = 2 ∧
    BT.leafCount (BinTree.node (BinTree.node BinTree.nil "2" BinTree.nil) "1"
      (BinTree.node BinTree.nil "3" BinTree.nil)) = 2 ∧
    BT.inOrder (BinTree.node (BinTree.node BinTree.nil "2" BinTree.nil) "1"
      (BinTree.node BinTree.nil "3" BinTree.nil)) = ["2", "1", "3"] := by
  refine ⟨by decide, by decide, by decide, by decide, by decide⟩

/-- C10: on the empty tree the four traversals return the empty sequence and
the three metrics return 0 (all total, no error value in their result type),
while `elem`/`left`/`right` are the partial observers. -/
theorem claim_C10_empty_tree_totality (α : Type) :
    BT.preOrder (BinTree.nil : BinTree α) = [] ∧
    BT.inOrder (BinTree.nil : BinTree α) = [] ∧
    BT.postOrder (BinTree.nil : BinTree α) = [] ∧
    BT.levels (BinTree.nil : BinTree α) = [] ∧
    BT.nodeCount (BinTree.nil : BinTree α) = 0 ∧
    BT.depth (BinTree.nil : BinTree α) = 0 ∧
    BT.leafCount (BinTree.nil : BinTree α) = 0 ∧
    BT.elem (BinTree.nil : BinTree α) = Except.error ADTError.emptyStructure ∧
    BT.left (BinTree.nil : BinTree α) = Except.error ADTError.emptyStructure ∧
    BT.right (BinTree.nil : BinTree α) = Except.error ADTError.emptyStructure :=
  ⟨rfl, rfl, rfl, rfl, rfl, rfl, rfl, rfl, rfl, rfl⟩

/-!
## Claim C4 — `BinTreeSmart` is a drop-in behavioral equivalent of `BinTree`

Both embeddings act on the same tree values, so proving every public
operation pointwise equal makes any sequence of public operations
observably equal on the two classes.
-/

theorem BT_BTS_pushChildren_eq (l r : BinTree α) :
    BT.pushChildren l r = BTS.pushChildren l r := by
  cases l <;> cases r <;> rfl

theorem BT_BTS_levelsAux_eq (q : List (BinTree α)) (acc : List α) :
    BT.levelsAux q acc = BTS.levelsAux q acc := by
  induction q, acc using BT.levelsAux.induct with
  | case1 acc => simp [BT.levelsAux, BTS.levelsAux]
  | case2 pending acc ih => simp [BT.levelsAux, BTS.levelsAux, ih]
  | case3 l e r pending acc ih =>
    simp [BT.levelsAux, BTS.levelsAux, BT_BTS_pushChildren_eq, ih]
    rw [← BT_BTS_pushChildren_eq]
    exact ih

theorem BT_BTS_preOrderAux_eq (t : BinTree α) (acc : List α) :
    BT.preOrderAux t acc = BTS.preOrderAux t acc := by
  induction t generalizing acc with
  | nil => rfl
  | node l e r ihl ihr => simp [BT.preOrderAux, BTS.preOrderAux, ihl, ihr]

theorem BT_BTS_inOrderAux_eq (t : BinTree α) (acc : List α) :
    BT.inOrderAux t acc = BTS.inOrderAux t acc := by
  induction t generalizing acc with
  | nil => rfl
  | node l e r ihl ihr => simp [BT.inOrderAux, BTS.inOrderAux, ihl, ihr]

theorem BT_BTS_postOrderAux_eq (t : BinTree α) (acc : List α) :
    BT.postOrderAux t acc = BTS.postOrderAux t acc := by
  induction t generalizing acc with
  | nil => rfl
  | node l e r ihl ihr => simp [BT.postOrderAux, BTS.postOrderAux, ihl, ihr]

theorem BT_BTS_compareAux_eq [DecidableEq α] (t1 t2 : BinTree α) :
    BT.compareAux t1 t2 = BTS.compareAux t1 t2 := by
  induction t1 generalizing t2 with
  | nil => cases t2 <;> rfl
  | node l1 e1 r1 ihl ihr =>
    cases t2 with
    | nil => rfl
    | node l2 e2 r2 => simp [BT.compareAux, BTS.compareAux, ihl, ihr]

theorem BT_BTS_fromPreOrderAux_eq [DecidableEq α] (emptyRep : α)
    (fuel : Nat) (input : List α) :
    BT.fromPreOrderAux emptyRep fuel input =
      BTS.fromPreOrderAux emptyRep fuel input := by
  induction fuel generalizing input with
  | zero => cases input <;> rfl
  | succ f ih =>
    cases input with
    | nil => rfl
    | cons e input => simp only [BT.fromPreOrderAux, BTS.fromPreOrderAux, ih]

theorem BT_BTS_fromInOrderAux_eq (fuel : Nat) (input : List (InTok α)) :
    BT.fromInOrderAux fuel input = BTS.fromInOrderAux fuel input := by
  induction fuel generalizing input with
  | zero => cases input <;> rfl
  | succ f ih =>
    cases input with
    | nil => rfl
    | cons tok input =>
      cases tok with
      | val a => rfl
      | sym c => simp only [BT.fromInOrderAux, BTS.fromInOrderAux, ih]

/-- C4: every public operation of `BinTreeSmart` computes the same
observable result as the corresponding operation of `BinTree` on the same
tree value; since both classes are value types whose whole state is that
tree value, any sequence of public operations behaves identically on the
two. -/
theorem claim_C4_smart_equivalent (α : Type) [DecidableEq α] :
    (BT.emptyTree : BinTree α) = BTS.emptyTree ∧
    (∀ e : α, BT.leaf e = BTS.leaf e) ∧
    (∀ (l : BinTree α) (e : α) (r : BinTree α), BT.mk l e r = BTS.mk l e r) ∧
    (∀ t : BinTree α, BT.isEmpty t = BTS.isEmpty t) ∧
    (∀ t : BinTree α, BT.elem t = BTS.elem t) ∧
    (∀ t : BinTree α, BT.left t = BTS.left t) ∧
    (∀ t : BinTree α, BT.right t = BTS.right t) ∧
    (∀ t : BinTree α, BT.preOrder t = BTS.preOrder t) ∧
    (∀ t : BinTree α, BT.inOrder t = BTS.inOrder t) ∧
    (∀ t : BinTree α, BT.postOrder t = BTS.postOrder t) ∧
    (∀ t : BinTree α, BT.levels t = BTS.levels t) ∧
    (∀ t : BinTree α, BT.nodeCount t = BTS.nodeCount t) ∧
    (∀ t : BinTree α, BT.depth t = BTS.depth t) ∧
    (∀ t : BinTree α, BT.leafCount t = BTS.leafCount t) ∧
    (∀ t1 t2 : BinTree α, BT.beq t1 t2 = BTS.beq t1 t2) ∧
    (∀ (emptyRep : α) (input : List α),
      BT.fromPreOrderInput emptyRep input = BTS.fromPreOrderInput emptyRep input) ∧
    (∀ input : List (InTok α),
      BT.fromInOrderInput input = BTS.fromInOrderInput input) := by
  refine ⟨rfl, fun e => rfl, fun l e r => rfl, ?_, ?_, ?_, ?_, ?_, ?_, ?_,
    ?_, ?_, ?_, ?_, ?_, ?_, ?_⟩
  · intro t; cases t <;> rfl
  · intro t; cases t <;> rfl
  · intro t; cases t <;> rfl
  · intro t; cases t <;> rfl
  · intro t; exact BT_BTS_preOrderAux_eq t []
  · intro t; exact BT_BTS_inOrderAux_eq t []
  · intro t; exact BT_BTS_postOrderAux_eq t []
  · intro t
    cases t with
    | nil => rfl
    | node l e r => exact BT_BTS_levelsAux_eq [BinTree.node l e r] []
  · intro t
    induction t with
    | nil => rfl
    | node l e r ihl ihr =>
      simp [BT.nodeCount, BTS.nodeCount, BT.nodeCountAux, BTS.nodeCountAux] at *
      omega
  · intro t
    induction t with
    | nil => rfl
    | node l e r ihl ihr =>
      simp [BT.depth, BTS.depth, BT.depthAux, BTS.depthAux] at *
      rw [ihl, ihr]
  · intro t
    induction t with
    | nil => rfl
    | node l e r ihl ihr =>
      cases l <;> cases r <;>
        simp_all [BT.leafCount, BTS.leafCount, BT.leafCountAux, BTS.leafCountAux]
  · intro t1 t2; exact BT_BTS_compareAux_eq t1 t2
  · intro emptyRep input
    exact BT_BTS_fromPreOrderAux_eq emptyRep input.length input
  · intro input
    exact BT_BTS_fromInOrderAux_eq input.length input

/-!
## §4.3 — `Stack.h`, `Queue.h`, `List.h` (claim C5)

Mutable containers are value types here; a throwing mutator is translated
as a function returning the raised error (or `()` on success) *and* the
container state after the call, so "the fault leaves the container in its
prior valid state" is expressible.  Throwing observers are `const` in C++
and return only the `Except` value.
-/

namespace StackM

/-- `Stack<T>`: the observable content `_data[0.._size)` of the dynamic
array, bottom element first (`_max`, the reserved capacity, is not
observable). -/
structure Stack (α : Type) where
  data : List α
deriving DecidableEq, Repr

/-- `Stack()`. -/
def emptyStack : Stack α := ⟨[]⟩

/-- `empty()`: `_size == 0`. -/
def empty (s : Stack α) : Bool := s.data.length == 0

/-- `size()`. -/
def size (s : Stack α) : Nat := s.data.length

/-- `push(elem)`: writes `_data[_size]` and increments `_size` (growth of
the backing array is not observable). -/
def push (s : Stack α) (e : α) : Stack α := ⟨s.data ++ [e]⟩

/-- `pop()`: throws `EmptyStackException` on an empty stack (before any
field is written), else decrements `_size`. -/
def pop (s : Stack α) : Except ADTError Unit × Stack α :=
  if empty s then (.error .emptyStructure, s)
  else (.ok (), ⟨s.data.dropLast⟩)

/-- `top()`: throws on an empty stack, else returns `_data[_size - 1]`. -/
def top (s : Stack α) : Except ADTError α :=
  if empty s then .error .emptyStructure
  else
    match s.data.getLast? with
    | some e => .ok e
    | none => .error .emptyStructure

end StackM

namespace QueueM

/-- `Queue<T>`: the linked list from `_first` to `_last`. -/
structure Queue (α : Type) where
  data : List α
deriving DecidableEq, Repr

/-- `Queue()`. -/
def emptyQueue : Queue α := ⟨[]⟩

/-- `empty()`: `_first == nullptr`. -/
def empty (q : Queue α) : Bool := q.data.isEmpty

/-- `size()`. -/
def size (q : Queue α) : Nat := q.data.length

/-- `push_back(elem)`. -/
def push_back (q : Queue α) (e : α) : Queue α := ⟨q.data ++ [e]⟩

/-- `pop_front()`: throws `EmptyQueueException` on an empty queue (before
any node is unlinked), else removes the first node. -/
def pop_front (q : Queue α) : Except ADTError Unit × Queue α :=
  match q.data with
  | [] => (.error .emptyStructure, q)
  | _ :: rest => (.ok (), ⟨rest⟩)

/-- `front()`: throws on an empty queue, else returns `_first->_elem`. -/
def front (q : Queue α) : Except ADTError α :=
  match q.data with
  | [] => .error .emptyStructure
  | e :: _ => .ok e

end QueueM

namespace ListM

/-- `List<T>` (doubly linked): the node sequence from `_first` to `_last`. -/
structure DList (α : Type) where
  data : List α
deriving DecidableEq, Repr

/-- `List()`. -/
def emptyList : DList α := ⟨[]⟩

/-- `empty()`: `_first == nullptr`. -/
def empty (l : DList α) : Bool := l.data.isEmpty

/-- `size()`. -/
def size (l : DList α) : Nat := l.data.length

/-- `push_front(elem)`. -/
def push_front (l : DList α) (e : α) : DList α := ⟨e :: l.data⟩

/-- `push_back(elem)`. -/
def push_back (l : DList α) (e : α) : DList α := ⟨l.data ++ [e]⟩

/-- `front()`: throws `EmptyListException` on an empty list. -/
def front (l : DList α) : Except ADTError α :=
  match l.data with
  | [] => .error .emptyStructure
  | e :: _ => .ok e

/-- `back()`: throws on an empty list, else `_last->_elem`. -/
def back (l : DList α) : Except ADTError α :=
  match l.data.getLast? with
  | none => .error .emptyStructure
  | some e => .ok e

/-- `pop_front()`: throws on an empty list (before unlinking anything). -/
def pop_front (l : DList α) : Except ADTError Unit × DList α :=
  match l.data with
  | [] => (.error .emptyStructure, l)
  | _ :: rest => (.ok (), ⟨rest⟩)

/-- `pop_back()`: throws on an empty list (before unlinking anything). -/
def pop_back (l : DList α) : Except ADTError Unit × DList α :=
  match l.data.getLast? with
  | none => (.error .emptyStructure, l)
  | some _ => (.ok (), ⟨l.data.dropLast⟩)

end ListM

/-- C5: every partial operation invoked on the corresponding empty
container raises the empty-structure error, and the faulting mutators
return the container unchanged (the emptiness test precedes any field
write in all of them). -/
theorem claim_C5_empty_structure_errors (α : Type) :
    StackM.top (StackM.emptyStack : StackM.Stack α) =
      Except.error ADTError.emptyStructure ∧
    StackM.pop (StackM.emptyStack : StackM.Stack α) =
      (Except.error ADTError.emptyStructure, StackM.emptyStack) ∧
    QueueM.front (QueueM.emptyQueue : QueueM.Queue α) =
      Except.error ADTError.emptyStructure ∧
    QueueM.pop_front (QueueM.emptyQueue : QueueM.Queue α) =
      (Except.error ADTError.emptyStructure, QueueM.emptyQueue) ∧
    ListM.front (ListM.emptyList : ListM.DList α) =
      Except.error ADTError.emptyStructure ∧
    ListM.back (ListM.emptyList : ListM.DList α) =
      Except.error ADTError.emptyStructure ∧
    ListM.pop_front (ListM.emptyList : ListM.DList α) =
      (Except.error ADTError.emptyStructure, ListM.emptyList) ∧
    ListM.pop_back (ListM.emptyList : ListM.DList α) =
      (Except.error ADTError.emptyStructure, ListM.emptyList) ∧
    BT.elem (BinTree.nil : BinTree α) = Except.error ADTError.emptyStructure ∧
    BT.left (BinTree.nil : BinTree α) = Except.error ADTError.emptyStructure ∧
    BT.right (BinTree.nil : BinTree α) = Except.error ADTError.emptyStructure :=
  ⟨rfl, rfl, rfl, rfl, rfl, rfl, rfl, rfl, rfl, rfl, rfl⟩

/-!
## §4.3 — `TreeMap.h` (claims C2, C8)

Namespace `TM`.  The comparator is `std::less<K>` (the default), i.e. `<`
of a linear order.  `_size` bookkeeping is not needed by any claim, so a
`TreeMap` value is its node structure.
-/

namespace TM

/-- The node structure of `TreeMap<K, V>`. -/
inductive TMTree (K V : Type) where
  | nil : TMTree K V
  | node : TMTree K V → K → V → TMTree K V → TMTree K V
deriving DecidableEq, Repr

variable {K V : Type}

/-- In-order list of `(key, value)` pairs (specification helper). -/
def inOrderP : TMTree K V → List (K × V)
  | TMTree.nil => []
  | TMTree.node l k v r => inOrderP l ++ (k, v) :: inOrderP r

/-- In-order list of keys (specification helper). -/
def keysInOrder (t : TMTree K V) : List K := (inOrderP t).map Prod.fst

/-- `insertAux(key, value, p)`.  Note the `else` branch of the C++ code:
when the key is already present the existing node is returned unchanged —
the stored value is *not* replaced. -/
def insertAux [LinearOrder K] (key : K) (value : V) : TMTree K V → TMTree K V
  | TMTree.nil => TMTree.node TMTree.nil key value TMTree.nil
  | TMTree.node l k v r =>
    if key < k then TMTree.node (insertAux key value l) k v r
    else if k < key then TMTree.node l k v (insertAux key value r)
    else TMTree.node l k v r

/-- `findAux(p, key)`: the stored value for `key`, if present. -/
def findAux [LinearOrder K] : TMTree K V → K → Option V
  | TMTree.nil, _ => none
  | TMTree.node l k v r, key =>
    if key < k then findAux l key
    else if k < key then findAux r key
    else some v

/-- `at(key)`: throws `BadKeyException` if the key is absent. -/
def atKey [LinearOrder K] (t : TMTree K V) (key : K) : Except ADTError V :=
  match findAux t key with
  | none => .error .badKey
  | some v => .ok v

/-- `contains(key)`. -/
def contains [LinearOrder K] (t : TMTree K V) (key : K) : Bool :=
  (findAux t key).isSome

/-- The `while (aux->_left != nullptr)` loop of `moveSmallestAndErase`,
applied to the node `(l, k, v, r)`: removes the leftmost node, returning
its `(key, value)` and the remaining structure. -/
def delLeftmost : TMTree K V → K → V → TMTree K V → (K × V) × TMTree K V
  | TMTree.nil, k, v, r => ((k, v), r)
  | TMTree.node ll lk lv lr, k, v, r =>
      let step := delLeftmost ll lk lv lr
      (step.1, TMTree.node step.2 k v r)

/-- `eraseRoot(p)`: removes the root of a non-empty structure; with two
children, `moveSmallestAndErase` promotes the smallest key of the right
subtree (the in-order successor) to the root. -/
def eraseRoot : TMTree K V → TMTree K V
  | TMTree.nil => TMTree.nil
  | TMTree.node TMTree.nil _ _ r => r
  | TMTree.node l _ _ TMTree.nil => l
  | TMTree.node l _ _ (TMTree.node rl rk rv rr) =>
      let step := delLeftmost rl rk rv rr
      TMTree.node l step.1.1 step.1.2 step.2

/-- `eraseAux(p, key)`. -/
def eraseAux [LinearOrder K] : TMTree K V → K → TMTree K V
  | TMTree.nil, _ => TMTree.nil
  | TMTree.node l k v r, key =>
    if key < k then TMTree.node (eraseAux l key) k v r
    else if k < key then TMTree.node l k v (eraseAux r key)
    else eraseRoot (TMTree.node l k v r)

/-- The binary-search-tree invariant of the node structure. -/
def IsBST [LinearOrder K] : TMTree K V → Prop
  | TMTree.nil => True
  | TMTree.node l k _ r =>
      (∀ k' ∈ keysInOrder l, k' < k) ∧ (∀ k' ∈ keysInOrder r, k < k') ∧
      IsBST l ∧ IsBST r

/-!
### The in-order iterator (`Iterator::next` with its ancestor stack)

An iterator state is the pair (`_current`, `_ancestors`); `_current` is the
subtree rooted at the current node (`none` = `nullptr` = past the end).
-/

/-- `firstInOrder(p)` together with the ancestor pushes it performs. -/
def firstInOrder : TMTree K V → List (TMTree K V) →
    Option (TMTree K V) × List (TMTree K V)
  | TMTree.nil, anc => (none, anc)
  | TMTree.node TMTree.nil k v r, anc => (some (TMTree.node TMTree.nil k v r), anc)
  | TMTree.node (TMTree.node ll lk lv lr) k v r, anc =>
      firstInOrder (TMTree.node ll lk lv lr)
        (TMTree.node (TMTree.node ll lk lv lr) k v r :: anc)

/-- `Iterator(root)`, i.e. `begin()`. -/
def beginIter (t : TMTree K V) : Option (TMTree K V) × List (TMTree K V) :=
  firstInOrder t []

/-- `Iterator::next()`:  jump to the first in-order node of the right child
if there is one, else backtrack to the first unvisited ancestor. -/
def next : Option (TMTree K V) × List (TMTree K V) →
    Option (TMTree K V) × List (TMTree K V)
  | (none, anc) => (none, anc)
  | (some TMTree.nil, anc) => (none, anc)
  | (some (TMTree.node _ _ _ (TMTree.node rl rk rv rr)), anc) =>
      firstInOrder (TMTree.node rl rk rv rr) anc
  | (some (TMTree.node _ _ _ TMTree.nil), []) => (none, [])
  | (some (TMTree.node _ _ _ TMTree.nil), a :: anc) => (some a, anc)

/-- The key sequence produced by `begin()`/`next()` until the iterator is
exhausted (`fuel` bounds the number of steps). -/
def collectKeys : Nat → Option (TMTree K V) × List (TMTree K V) → List K
  | 0, _ => []
  | _ + 1, (none, _) => []
  | _ + 1, (some TMTree.nil, _) => []
  | fuel + 1, (some (TMTree.node l k v r), anc) =>
      k :: collectKeys fuel (next (some (TMTree.node l k v r), anc))

/-- The keys an iterator state will still yield: those of the current node
and its right subtree, then, per pending ancestor, the ancestor's key and
its right subtree's keys. -/
def toYieldCur : Option (TMTree K V) → List K
  | none => []
  | some TMTree.nil => []
  | some (TMTree.node _ k _ r) => k :: keysInOrder r

/-- See `toYieldCur`. -/
def toYield (st : Option (TMTree K V) × List (TMTree K V)) : List K :=
  toYieldCur st.1 ++ (st.2.map fun a => toYieldCur (some a)).flatten

/-- Reachable iterator states: a `none` current only occurs with an empty
ancestor stack, and neither the current node nor any stacked ancestor is an
empty tree. -/
def WFIter (st : Option (TMTree K V) × List (TMTree K V)) : Prop :=
  (st.1 = none → st.2 = []) ∧ st.1 ≠ some TMTree.nil ∧
    ∀ a ∈ st.2, a ≠ TMTree.nil

/-- A sequence of map operations (claim C8 quantifies over these). -/
inductive MapOp (K V : Type) where
  | ins : K → V → MapOp K V
  | del : K → MapOp K V
deriving DecidableEq, Repr

/-- `insert` / `erase` as operations on the node structure. -/
def applyOp [LinearOrder K] (t : TMTree K V) : MapOp K V → TMTree K V
  | MapOp.ins k v => insertAux k v t
  | MapOp.del k => eraseAux t k

/-- A `TreeMap` built by a sequence of `insert`/`erase` calls. -/
def applyOps [LinearOrder K] (ops : List (MapOp K V)) : TMTree K V :=
  ops.foldl applyOp TMTree.nil

end TM

section TMTests

example : TM.atKey (TM.insertAux 1 20 (TM.insertAux (1 : Nat) (10 : Nat)
    TM.TMTree.nil)) 1 = Except.ok 10 := rfl

example : TM.collectKeys 3 (TM.beginIter (TM.applyOps
    [TM.MapOp.ins 2 "b", TM.MapOp.ins (1 : Nat) "a", TM.MapOp.ins 3 "c"])) =
    [1, 2, 3] := by decide

example : TM.eraseAux (TM.applyOps [TM.MapOp.ins 2 "b",
    TM.MapOp.ins (1 : Nat) "a", TM.MapOp.ins 3 "c"]) 2 =
    TM.TMTree.node (TM.TMTree.node TM.TMTree.nil 1 "a" TM.TMTree.nil) 3 "c"
      TM.TMTree.nil := by decide

end TMTests

/-- C2 (evidence of the divergence): `TreeMap::insert` on an existing key
does *not* replace the stored value — `insertAux` returns the existing node
unchanged — so `at` afterwards still returns the old value (here `10`,
where the claim and the code's own documentation demand the new value
`20`); the insert is a complete no-op. -/
theorem claim_C2_insert_does_not_replace :
    TM.atKey (TM.insertAux 1 20 (TM.insertAux (1 : Nat) (10 : Nat)
      TM.TMTree.nil)) 1 = Except.ok 10 ∧
    TM.insertAux 1 20 (TM.insertAux (1 : Nat) (10 : Nat) TM.TMTree.nil) =
      TM.insertAux (1 : Nat) (10 : Nat) TM.TMTree.nil :=
  ⟨rfl, rfl⟩

namespace TM

variable {K V : Type}

theorem keysInOrder_nil : keysInOrder (TMTree.nil : TMTree K V) = [] := rfl

theorem keysInOrder_node (l : TMTree K V) (k : K) (v : V) (r : TMTree K V) :
    keysInOrder (TMTree.node l k v r) =
      keysInOrder l ++ k :: keysInOrder r := by
  simp [keysInOrder, inOrderP]

theorem mem_keys_insertAux [LinearOrder K] {key : K} {value : V}
    {t : TMTree K V} {k' : K}
    (h : k' ∈ keysInOrder (insertAux key value t)) :
    k' ∈ keysInOrder t ∨ k' = key := by
  induction t with
  | nil =>
    simp [insertAux, keysInOrder_node, keysInOrder_nil] at h
    exact Or.inr h
  | node l k v r ihl ihr =>
    simp only [insertAux] at h
    rcases lt_trichotomy key k with hlt | heq | hgt
    · rw [if_pos hlt] at h
      rw [keysInOrder_node] at h ⊢
      simp only [List.mem_append, List.mem_cons] at h ⊢
      rcases h with h | h
      · rcases ihl h with h' | h'
        · exact Or.inl (Or.inl h')
        · exact Or.inr h'
      · exact Or.inl (Or.inr h)
    · rw [if_neg (by simp [heq]), if_neg (by simp [heq])] at h
      exact Or.inl h
    · rw [if_neg (by exact not_lt_of_gt hgt), if_pos hgt] at h
      rw [keysInOrder_node] at h ⊢
      simp only [List.mem_append, List.mem_cons] at h ⊢
      rcases h with h | h | h
      · exact Or.inl (Or.inl h)
      · exact Or.inl (Or.inr (Or.inl h))
      · rcases ihr h with h' | h'
        · exact Or.inl (Or.inr (Or.inr h'))
        · exact Or.inr h'

theorem IsBST_insertAux [LinearOrder K] {key : K} {value : V} {t : TMTree K V}
    (h : IsBST t) : IsBST (insertAux key value t) := by
  induction t with
  | nil => simp [insertAux, IsBST, keysInOrder_nil]
  | node l k v r ihl ihr =>
    simp only [IsBST] at h
    obtain ⟨hl, hr, bl, br⟩ := h
    simp only [insertAux]
    rcases lt_trichotomy key k with hlt | heq | hgt
    · rw [if_pos hlt]
      simp only [IsBST]
      refine ⟨?_, hr, ihl bl, br⟩
      intro k' hk'
      rcases mem_keys_insertAux hk' with h' | h'
      · exact hl k' h'
      · exact h' ▸ hlt
    · rw [if_neg (by simp [heq]), if_neg (by simp [heq])]
      exact ⟨hl, hr, bl, br⟩
    · rw [if_neg (by exact not_lt_of_gt hgt), if_pos hgt]
      simp only [IsBST]
      refine ⟨hl, ?_, bl, ihr br⟩
      intro k' hk'
      rcases mem_keys_insertAux hk' with h' | h'
      · exact hr k' h'
      · exact h' ▸ hgt

theorem pairwise_keysInOrder [LinearOrder K] {t : TMTree K V} (h : IsBST t) :
    List.Pairwise (· < ·) (keysInOrder t) := by
  induction t with
  | nil => simp [keysInOrder_nil]
  | node l k v r ihl ihr =>
    simp only [IsBST] at h
    obtain ⟨hl, hr, bl, br⟩ := h
    rw [keysInOrder_node, List.pairwise_append]
    refine ⟨ihl bl, ?_, ?_⟩
    · rw [List.pairwise_cons]
      exact ⟨hr, ihr br⟩
    · intro x hx y hy
      rcases List.mem_cons.mp hy with rfl | hy
      · exact hl x hx
      · exact lt_trans (hl x hx) (hr y hy)

theorem contains_iff_mem [LinearOrder K] {t : TMTree K V} (h : IsBST t)
    (key : K) :
    contains t key = true ↔ key ∈ keysInOrder t := by
  induction t with
  | nil => simp [contains, findAux, keysInOrder_nil]
  | node l k v r ihl ihr =>
    simp only [IsBST] at h
    obtain ⟨hl, hr, bl, br⟩ := h
    rw [keysInOrder_node]
    simp only [contains, findAux]
    rcases lt_trichotomy key k with hlt | heq | hgt
    · rw [if_pos hlt]
      rw [show (findAux l key).isSome = contains l key from rfl, ihl bl]
      simp only [List.mem_append, List.mem_cons]
      constructor
      · exact fun hm => Or.inl hm
      · rintro (hm | rfl | hm)
        · exact hm
        · exact absurd hlt (lt_irrefl _)
        · exact absurd (lt_trans hlt (hr _ hm)) (lt_irrefl _)
    · subst heq
      rw [if_neg (lt_irrefl _), if_neg (lt_irrefl _)]
      simp
    · rw [if_neg (by exact not_lt_of_gt hgt), if_pos hgt]
      rw [show (findAux r key).isSome = contains r key from rfl, ihr br]
      simp only [List.mem_append, List.mem_cons]
      constructor
      · exact fun hm => Or.inr (Or.inr hm)
      · rintro (hm | rfl | hm)
        · exact absurd (lt_trans hgt (hl _ hm)) (lt_irrefl _)
        · exact absurd hgt (lt_irrefl _)
        · exact hm

theorem inOrderP_delLeftmost (l : TMTree K V) (k : K) (v : V)
    (r : TMTree K V) :
    inOrderP (TMTree.node l k v r) =
      (delLeftmost l k v r).1 :: inOrderP (delLeftmost l k v r).2 := by
  induction l generalizing k v r with
  | nil => simp [inOrderP, delLeftmost]
  | node ll lk lv lr ihl ihr =>
    have := ihl lk lv lr
    simp only [delLeftmost]
    calc inOrderP (TMTree.node (TMTree.node ll lk lv lr) k v r)
        = inOrderP (TMTree.node ll lk lv lr) ++ (k, v) :: inOrderP r := by
          simp [inOrderP]
      _ = ((delLeftmost ll lk lv lr).1 :: inOrderP (delLeftmost ll lk lv lr).2)
            ++ (k, v) :: inOrderP r := by rw [← this]
      _ = (delLeftmost ll lk lv lr).1 ::
            inOrderP (TMTree.node (delLeftmost ll lk lv lr).2 k v r) := by
          simp [inOrderP]

theorem keysInOrder_delLeftmost (l : TMTree K V) (k : K) (v : V)
    (r : TMTree K V) :
    keysInOrder (TMTree.node l k v r) =
      (delLeftmost l k v r).1.1 :: keysInOrder (delLeftmost l k v r).2 := by
  unfold keysInOrder
  rw [inOrderP_delLeftmost]
  simp

theorem IsBST_delLeftmost [LinearOrder K] {l : TMTree K V} {k : K} {v : V}
    {r : TMTree K V} (h : IsBST (TMTree.node l k v r)) :
    IsBST (delLeftmost l k v r).2 := by
  induction l generalizing k v r with
  | nil =>
    simp only [IsBST] at h
    simpa [delLeftmost] using h.2.2.2
  | node ll lk lv lr ihl ihr =>
    simp only [IsBST] at h
    obtain ⟨hl, hr, bl, br⟩ := h
    simp only [delLeftmost, IsBST]
    refine ⟨?_, hr, ihl (k := lk) bl, br⟩
    intro k' hk'
    apply hl
    rw [keysInOrder_delLeftmost ll lk lv lr]
    exact List.mem_cons_of_mem _ hk'

theorem keysInOrder_eraseRoot (l : TMTree K V) (k : K) (v : V)
    (r : TMTree K V) :
    keysInOrder (eraseRoot (TMTree.node l k v r)) =
      keysInOrder l ++ keysInOrder r := by
  match l, r with
  | TMTree.nil, r => simp [eraseRoot, keysInOrder_nil]
  | TMTree.node ll lk lv lr, TMTree.nil =>
    simp [eraseRoot, keysInOrder_nil]
  | TMTree.node ll lk lv lr, TMTree.node rl rk rv rr =>
    simp only [eraseRoot]
    rw [keysInOrder_node, ← keysInOrder_delLeftmost rl rk rv rr]

theorem mem_keys_eraseAux [LinearOrder K] {t : TMTree K V} {key k' : K}
    (h : k' ∈ keysInOrder (eraseAux t key)) : k' ∈ keysInOrder t := by
  induction t with
  | nil => simpa [eraseAux] using h
  | node l k v r ihl ihr =>
    simp only [eraseAux] at h
    rcases lt_trichotomy key k with hlt | heq | hgt
    · rw [if_pos hlt] at h
      rw [keysInOrder_node] at h ⊢
      simp only [List.mem_append, List.mem_cons] at h ⊢
      rcases h with h | h
      · exact Or.inl (ihl h)
      · exact Or.inr h
    · rw [if_neg (by simp [heq]), if_neg (by simp [heq])] at h
      rw [keysInOrder_eraseRoot] at h
      rw [keysInOrder_node]
      simp only [List.mem_append, List.mem_cons] at h ⊢
      rcases h with h | h
      · exact Or.inl h
      · exact Or.inr (Or.inr h)
    · rw [if_neg (by exact not_lt_of_gt hgt), if_pos hgt] at h
      rw [keysInOrder_node] at h ⊢
      simp only [List.mem_append, List.mem_cons] at h ⊢
      rcases h with h | h | h
      · exact Or.inl h
      · exact Or.inr (Or.inl h)
      · exact Or.inr (Or.inr (ihr h))

theorem IsBST_eraseRoot [LinearOrder K] {l : TMTree K V} {k : K} {v : V}
    {r : TMTree K V} (h : IsBST (TMTree.node l k v r)) :
    IsBST (eraseRoot (TMTree.node l k v r)) := by
  simp only [IsBST] at h
  obtain ⟨hl, hr, bl, br⟩ := h
  match l, r with
  | TMTree.nil, r => simpa [eraseRoot] using br
  | TMTree.node ll lk lv lr, TMTree.nil => simpa [eraseRoot] using bl
  | TMTree.node ll lk lv lr, TMTree.node rl rk rv rr =>
    simp only [eraseRoot, IsBST]
    have hdec := keysInOrder_delLeftmost rl rk rv rr
    have hmem : (delLeftmost rl rk rv rr).1.1 ∈
        keysInOrder (TMTree.node rl rk rv rr) := by
      rw [hdec]; exact List.mem_cons_self _ _
    refine ⟨?_, ?_, bl, IsBST_delLeftmost br⟩
    · intro k' hk'
      exact lt_trans (hl k' hk') (hr _ hmem)
    · intro k' hk'
      have hpw := pairwise_keysInOrder br
      rw [hdec, List.pairwise_cons] at hpw
      exact hpw.1 k' hk'

theorem not_mem_keys_eraseAux [LinearOrder K] {t : TMTree K V} {key : K}
    (h : IsBST t) : key ∉ keysInOrder (eraseAux t key) := by
  induction t with
  | nil => simp [eraseAux, keysInOrder_nil]
  | node l k v r ihl ihr =>
    simp only [IsBST] at h
    obtain ⟨hl, hr, bl, br⟩ := h
    simp only [eraseAux]
    rcases lt_trichotomy key k with hlt | heq | hgt
    · rw [if_pos hlt, keysInOrder_node]
      simp only [List.mem_append, List.mem_cons]
      rintro (hm | rfl | hm)
      · exact ihl bl hm
      · exact absurd hlt (lt_irrefl _)
      · exact absurd (lt_trans hlt (hr _ hm)) (lt_irrefl _)
    · subst heq
      rw [if_neg (lt_irrefl _), if_neg (lt_irrefl _), keysInOrder_eraseRoot]
      simp only [List.mem_append]
      rintro (hm | hm)
      · exact absurd (hl _ hm) (lt_irrefl _)
      · exact absurd (hr _ hm) (lt_irrefl _)
    · rw [if_neg (by exact not_lt_of_gt hgt), if_pos hgt, keysInOrder_node]
      simp only [List.mem_append, List.mem_cons]
      rintro (hm | rfl | hm)
      · exact absurd (lt_trans hgt (hl _ hm)) (lt_irrefl _)
      · exact absurd hgt (lt_irrefl _)
      · exact ihr br hm

theorem IsBST_eraseAux [LinearOrder K] {t : TMTree K V} {key : K}
    (h : IsBST t) : IsBST (eraseAux t key) := by
  induction t with
  | nil => simpa [eraseAux] using h
  | node l k v r ihl ihr =>
    have h' := h
    simp only [IsBST] at h'
    obtain ⟨hl, hr, bl, br⟩ := h'
    simp only [eraseAux]
    rcases lt_trichotomy key k with hlt | heq | hgt
    · rw [if_pos hlt]
      simp only [IsBST]
      exact ⟨fun k' hk' => hl k' (mem_keys_eraseAux hk'), hr, ihl bl, br⟩
    · rw [if_neg (by simp [heq]), if_neg (by simp [heq])]
      exact IsBST_eraseRoot h
    · rw [if_neg (by exact not_lt_of_gt hgt), if_pos hgt]
      simp only [IsBST]
      exact ⟨hl, fun k' hk' => hr k' (mem_keys_eraseAux hk'), bl, ihr br⟩

theorem contains_eraseAux_self [LinearOrder K] {t : TMTree K V}
    (h : IsBST t) (key : K) : contains (eraseAux t key) key = false := by
  have h1 : IsBST (eraseAux t key) := IsBST_eraseAux h
  rw [← Bool.not_eq_true, contains_iff_mem h1]
  exact not_mem_keys_eraseAux h

theorem IsBST_applyOp [LinearOrder K] {t : TMTree K V} (h : IsBST t)
    (op : MapOp K V) : IsBST (applyOp t op) := by
  cases op with
  | ins k v => exact IsBST_insertAux h
  | del k => exact IsBST_eraseAux h

theorem IsBST_applyOps [LinearOrder K] (ops : List (MapOp K V)) :
    IsBST (applyOps ops) := by
  suffices h : ∀ (t : TMTree K V), IsBST t → IsBST (ops.foldl applyOp t) by
    exact h TMTree.nil trivial
  induction ops with
  | nil => exact fun t ht => ht
  | cons op ops ih => exact fun t ht => ih _ (IsBST_applyOp ht op)

theorem toYield_firstInOrder (p : TMTree K V) (anc : List (TMTree K V)) :
    toYield (firstInOrder p anc) =
      keysInOrder p ++ (anc.map fun a => toYieldCur (some a)).flatten := by
  induction p generalizing anc with
  | nil => simp [firstInOrder, toYield, toYieldCur, keysInOrder_nil]
  | node l k v r ihl ihr =>
    cases l with
    | nil =>
      simp [firstInOrder, toYield, toYieldCur, keysInOrder_node,
        keysInOrder_nil]
    | node ll lk lv lr =>
      rw [firstInOrder, ihl]
      simp [toYieldCur, keysInOrder_node]

theorem WFIter_firstInOrder {p : TMTree K V} {anc : List (TMTree K V)}
    (hanc : ∀ a ∈ anc, a ≠ TMTree.nil) (hnil : p = TMTree.nil → anc = []) :
    WFIter (firstInOrder p anc) := by
  induction p generalizing anc with
  | nil =>
    refine ⟨fun _ => hnil rfl, ?_, ?_⟩
    · simp [firstInOrder]
    · simp [firstInOrder, hnil rfl]
  | node l k v r ihl ihr =>
    cases l with
    | nil =>
      exact ⟨fun hcontra => by simp [firstInOrder] at hcontra,
        by simp [firstInOrder], by simpa [firstInOrder] using hanc⟩
    | node ll lk lv lr =>
      rw [firstInOrder]
      apply ihl
      · intro a ha
        rcases List.mem_cons.mp ha with rfl | ha
        · exact nofun
        · exact hanc a ha
      · exact nofun

theorem WFIter_next {st : Option (TMTree K V) × List (TMTree K V)}
    (h : WFIter st) : WFIter (next st) := by
  obtain ⟨cur, anc⟩ := st
  obtain ⟨h1, h2, h3⟩ := h
  match cur with
  | none =>
    have : anc = [] := h1 rfl
    subst this
    exact ⟨fun _ => rfl, nofun, nofun⟩
  | some TMTree.nil => exact absurd rfl h2
  | some (TMTree.node l k v TMTree.nil) =>
    match anc with
    | [] => exact ⟨fun _ => rfl, nofun, nofun⟩
    | a :: anc =>
      refine ⟨?_, ?_, ?_⟩
      · intro hcontra; simp [next] at hcontra
      · have := h3 a (List.mem_cons_self a anc)
        simpa [next] using this
      · intro b hb
        exact h3 b (List.mem_cons_of_mem a (by simpa [next] using hb))
  | some (TMTree.node l k v (TMTree.node rl rk rv rr)) =>
    rw [next]
    exact WFIter_firstInOrder h3 nofun

theorem toYield_next (l : TMTree K V) (k : K) (v : V) (r : TMTree K V)
    (anc : List (TMTree K V)) :
    toYield (some (TMTree.node l k v r), anc) =
      k :: toYield (next (some (TMTree.node l k v r), anc)) := by
  cases r with
  | nil =>
    match anc with
    | [] => simp [toYield, toYieldCur, next, keysInOrder_nil]
    | a :: anc => simp [toYield, toYieldCur, next, keysInOrder_nil]
  | node rl rk rv rr =>
    rw [next, toYield_firstInOrder]
    simp [toYield, toYieldCur]

theorem collectKeys_toYield {fuel : Nat} :
    ∀ st : Option (TMTree K V) × List (TMTree K V), WFIter st →
      (toYield st).length ≤ fuel → collectKeys fuel st = toYield st := by
  induction fuel with
  | zero =>
    intro st _ hlen
    have : toYield st = [] := List.eq_nil_of_length_eq_zero (by omega)
    rw [this]; rfl
  | succ f ih =>
    intro st hwf hlen
    obtain ⟨cur, anc⟩ := st
    match cur with
    | none =>
      have : anc = [] := hwf.1 rfl
      subst this
      simp [collectKeys, toYield, toYieldCur]
    | some TMTree.nil => exact absurd rfl hwf.2.1
    | some (TMTree.node l k v r) =>
      rw [collectKeys, toYield_next]
      congr 1
      apply ih _ (WFIter_next hwf)
      rw [toYield_next l k v r anc] at hlen
      simpa using hlen

theorem toYield_beginIter (t : TMTree K V) :
    toYield (beginIter t) = keysInOrder t := by
  rw [beginIter, toYield_firstInOrder]
  simp

theorem WFIter_beginIter (t : TMTree K V) : WFIter (beginIter t) :=
  WFIter_firstInOrder nofun (fun _ => rfl)

theorem collectKeys_beginIter (t : TMTree K V) :
    collectKeys (keysInOrder t).length (beginIter t) = keysInOrder t := by
  rw [← toYield_beginIter t]
  exact collectKeys_toYield _ (WFIter_beginIter t) (by rw [toYield_beginIter])

end TM

/-!
## §4.3 — `TreeSet.h` (claims C2, C8)

Namespace `TS`.  `TreeSet<T>` compares with the element type's own `==`,
`<` and `>` operators (a linear order); its node stores only the element.
-/

namespace TS

/-- The node structure of `TreeSet<T>`. -/
inductive TSTree (α : Type) where
  | nil : TSTree α
  | node : TSTree α → α → TSTree α → TSTree α
deriving DecidableEq, Repr

variable {α : Type}

/-- In-order element list (specification helper). -/
def inOrderL : TSTree α → List α
  | TSTree.nil => []
  | TSTree.node l e r => inOrderL l ++ e :: inOrderL r

/-- `insertAux(elem, p)`: equality is tested first; an already-present
element returns the node unchanged. -/
def insertAux [LinearOrder α] (elem : α) : TSTree α → TSTree α
  | TSTree.nil => TSTree.node TSTree.nil elem TSTree.nil
  | TSTree.node l e r =>
    if e = elem then TSTree.node l e r
    else if elem < e then TSTree.node (insertAux elem l) e r
    else TSTree.node l e (insertAux elem r)

/-- `findAux(p, elem)`. -/
def findAux [LinearOrder α] : TSTree α → α → Option α
  | TSTree.nil, _ => none
  | TSTree.node l e r, elem =>
    if e = elem then some e
    else if elem < e then findAux l elem
    else findAux r elem

/-- `contains(elem)`. -/
def contains [LinearOrder α] (t : TSTree α) (elem : α) : Bool :=
  (findAux t elem).isSome

/-- The leftmost-removal loop of `moveSmallestAndErase`, on the node
`(l, e, r)`. -/
def delLeftmost : TSTree α → α → TSTree α → α × TSTree α
  | TSTree.nil, e, r => (e, r)
  | TSTree.node ll le lr, e, r =>
      let step := delLeftmost ll le lr
      (step.1, TSTree.node step.2 e r)

/-- `eraseRoot(p)`. -/
def eraseRoot : TSTree α → TSTree α
  | TSTree.nil => TSTree.nil
  | TSTree.node TSTree.nil _ r => r
  | TSTree.node l _ TSTree.nil => l
  | TSTree.node l _ (TSTree.node rl re rr) =>
      let step := delLeftmost rl re rr
      TSTree.node l step.1 step.2

/-- `eraseAux(p, elem)`: equality is tested first. -/
def eraseAux [LinearOrder α] : TSTree α → α → TSTree α
  | TSTree.nil, _ => TSTree.nil
  | TSTree.node l e r, elem =>
    if elem = e then eraseRoot (TSTree.node l e r)
    else if elem < e then TSTree.node (eraseAux l elem) e r
    else TSTree.node l e (eraseAux r elem)

/-- Binary-search-tree invariant. -/
def IsBST [LinearOrder α] : TSTree α → Prop
  | TSTree.nil => True
  | TSTree.node l e r =>
      (∀ e' ∈ inOrderL l, e' < e) ∧ (∀ e' ∈ inOrderL r, e < e') ∧
      IsBST l ∧ IsBST r

/-- `firstInOrder(p)` of the `TreeSet` iterator. -/
def firstInOrder : TSTree α → List (TSTree α) →
    Option (TSTree α) × List (TSTree α)
  | TSTree.nil, anc => (none, anc)
  | TSTree.node TSTree.nil e r, anc => (some (TSTree.node TSTree.nil e r), anc)
  | TSTree.node (TSTree.node ll le lr) e r, anc =>
      firstInOrder (TSTree.node ll le lr)
        (TSTree.node (TSTree.node ll le lr) e r :: anc)

/-- `begin()`. -/
def beginIter (t : TSTree α) : Option (TSTree α) × List (TSTree α) :=
  firstInOrder t []

/-- `Iterator::next()`. -/
def next : Option (TSTree α) × List (TSTree α) →
    Option (TSTree α) × List (TSTree α)
  | (none, anc) => (none, anc)
  | (some TSTree.nil, anc) => (none, anc)
  | (some (TSTree.node _ _ (TSTree.node rl re rr)), anc) =>
      firstInOrder (TSTree.node rl re rr) anc
  | (some (TSTree.node _ _ TSTree.nil), []) => (none, [])
  | (some (TSTree.node _ _ TSTree.nil), a :: anc) => (some a, anc)

/-- Elements produced by `begin()`/`next()` until exhaustion. -/
def collectElems : Nat → Option (TSTree α) × List (TSTree α) → List α
  | 0, _ => []
  | _ + 1, (none, _) => []
  | _ + 1, (some TSTree.nil, _) => []
  | fuel + 1, (some (TSTree.node l e r), anc) =>
      e :: collectElems fuel (next (some (TSTree.node l e r), anc))

/-- Elements an iterator state will still yield. -/
def toYieldCur : Option (TSTree α) → List α
  | none => []
  | some TSTree.nil => []
  | some (TSTree.node _ e r) => e :: inOrderL r

/-- See `toYieldCur`. -/
def toYield (st : Option (TSTree α) × List (TSTree α)) : List α :=
  toYieldCur st.1 ++ (st.2.map fun a => toYieldCur (some a)).flatten

/-- Reachable iterator states. -/
def WFIter (st : Option (TSTree α) × List (TSTree α)) : Prop :=
  (st.1 = none → st.2 = []) ∧ st.1 ≠ some TSTree.nil ∧
    ∀ a ∈ st.2, a ≠ TSTree.nil

/-- A sequence of set operations. -/
inductive SetOp (α : Type) where
  | ins : α → SetOp α
  | del : α → SetOp α
deriving DecidableEq, Repr

/-- `insert` / `erase` on the node structure. -/
def applyOp [LinearOrder α] (t : TSTree α) : SetOp α → TSTree α
  | SetOp.ins e => insertAux e t
  | SetOp.del e => eraseAux t e

/-- A `TreeSet` built by a sequence of `insert`/`erase` calls. -/
def applyOps [LinearOrder α] (ops : List (SetOp α)) : TSTree α :=
  ops.foldl applyOp TSTree.nil

theorem inOrderL_nil : inOrderL (TSTree.nil : TSTree α) = [] := rfl

theorem mem_inOrderL_insertAux [LinearOrder α] {elem : α} {t : TSTree α}
    {e' : α} (h : e' ∈ inOrderL (insertAux elem t)) :
    e' ∈ inOrderL t ∨ e' = elem := by
  induction t with
  | nil => simp [insertAux, inOrderL] at h; exact Or.inr h
  | node l e r ihl ihr =>
    simp only [insertAux] at h
    by_cases heq : e = elem
    · rw [if_pos heq] at h
      exact Or.inl h
    · rw [if_neg heq] at h
      by_cases hlt : elem < e
      · rw [if_pos hlt] at h
        simp only [inOrderL, List.mem_append, List.mem_cons] at h ⊢
        rcases h with h | h
        · rcases ihl h with h' | h'
          · exact Or.inl (Or.inl h')
          · exact Or.inr h'
        · exact Or.inl (Or.inr h)
      · rw [if_neg hlt] at h
        simp only [inOrderL, List.mem_append, List.mem_cons] at h ⊢
        rcases h with h | h | h
        · exact Or.inl (Or.inl h)
        · exact Or.inl (Or.inr (Or.inl h))
        · rcases ihr h with h' | h'
          · exact Or.inl (Or.inr (Or.inr h'))
          · exact Or.inr h'

theorem IsBST_insertAux_set [LinearOrder α] {elem : α} {t : TSTree α}
    (h : IsBST t) : IsBST (insertAux elem t) := by
  induction t with
  | nil => simp [insertAux, IsBST, inOrderL]
  | node l e r ihl ihr =>
    simp only [IsBST] at h
    obtain ⟨hl, hr, bl, br⟩ := h
    simp only [insertAux]
    by_cases heq : e = elem
    · rw [if_pos heq]
      exact ⟨hl, hr, bl, br⟩
    · rw [if_neg heq]
      rcases lt_or_gt_of_ne (Ne.symm heq) with hlt | hgt
      · rw [if_pos hlt]
        simp only [IsBST]
        refine ⟨?_, hr, ihl bl, br⟩
        intro e' he'
        rcases mem_inOrderL_insertAux he' with h' | h'
        · exact hl e' h'
        · exact h' ▸ hlt
      · rw [if_neg (by exact not_lt_of_gt hgt)]
        simp only [IsBST]
        refine ⟨hl, ?_, bl, ihr br⟩
        intro e' he'
        rcases mem_inOrderL_insertAux he' with h' | h'
        · exact hr e' h'
        · exact h' ▸ hgt

theorem pairwise_inOrderL [LinearOrder α] {t : TSTree α} (h : IsBST t) :
    List.Pairwise (· < ·) (inOrderL t) := by
  induction t with
  | nil => simp [inOrderL]
  | node l e r ihl ihr =>
    simp only [IsBST] at h
    obtain ⟨hl, hr, bl, br⟩ := h
    rw [inOrderL, List.pairwise_append]
    refine ⟨ihl bl, ?_, ?_⟩
    · rw [List.pairwise_cons]
      exact ⟨hr, ihr br⟩
    · intro x hx y hy
      rcases List.mem_cons.mp hy with rfl | hy
      · exact hl x hx
      · exact lt_trans (hl x hx) (hr y hy)

theorem contains_iff_mem_set [LinearOrder α] {t : TSTree α} (h : IsBST t)
    (elem : α) : contains t elem = true ↔ elem ∈ inOrderL t := by
  induction t with
  | nil => simp [contains, findAux, inOrderL]
  | node l e r ihl ihr =>
    simp only [IsBST] at h
    obtain ⟨hl, hr, bl, br⟩ := h
    simp only [contains, findAux, inOrderL]
    by_cases heq : e = elem
    · subst heq
      simp
    · rw [if_neg heq]
      rcases lt_or_gt_of_ne (Ne.symm heq) with hlt | hgt
      · rw [if_pos hlt]
        rw [show (findAux l elem).isSome = contains l elem from rfl, ihl bl]
        simp only [List.mem_append, List.mem_cons]
        constructor
        · exact fun hm => Or.inl hm
        · rintro (hm | rfl | hm)
          · exact hm
          · exact absurd rfl heq
          · exact absurd (lt_trans hlt (hr _ hm)) (lt_irrefl _)
      · rw [if_neg (by exact not_lt_of_gt hgt)]
        rw [show (findAux r elem).isSome = contains r elem from rfl, ihr br]
        simp only [List.mem_append, List.mem_cons]
        constructor
        · exact fun hm => Or.inr (Or.inr hm)
        · rintro (hm | rfl | hm)
          · exact absurd (lt_trans hgt (hl _ hm)) (lt_irrefl _)
          · exact absurd rfl heq
          · exact hm

theorem insertAux_of_contains [LinearOrder α] {t : TSTree α} {elem : α}
    (h : contains t elem = true) : insertAux elem t = t := by
  induction t with
  | nil => simp [contains, findAux] at h
  | node l e r ihl ihr =>
    simp only [contains, findAux] at h
    simp only [insertAux]
    by_cases heq : e = elem
    · rw [if_pos heq]
    · rw [if_neg heq] at h ⊢
      by_cases hlt : elem < e
      · rw [if_pos hlt] at h ⊢
        rw [ihl h]
      · rw [if_neg hlt] at h ⊢
        rw [ihr h]

theorem inOrderL_delLeftmost (l : TSTree α) (e : α) (r : TSTree α) :
    inOrderL (TSTree.node l e r) =
      (delLeftmost l e r).1 :: inOrderL (delLeftmost l e r).2 := by
  induction l generalizing e r with
  | nil => simp [inOrderL, delLeftmost]
  | node ll le lr ihl ihr =>
    have := ihl le lr
    simp only [delLeftmost]
    calc inOrderL (TSTree.node (TSTree.node ll le lr) e r)
        = inOrderL (TSTree.node ll le lr) ++ e :: inOrderL r := by
          simp [inOrderL]
      _ = ((delLeftmost ll le lr).1 :: inOrderL (delLeftmost ll le lr).2)
            ++ e :: inOrderL r := by rw [← this]
      _ = (delLeftmost ll le lr).1 ::
            inOrderL (TSTree.node (delLeftmost ll le lr).2 e r) := by
          simp [inOrderL]

theorem IsBST_delLeftmost_set [LinearOrder α] {l : TSTree α} {e : α}
    {r : TSTree α} (h : IsBST (TSTree.node l e r)) :
    IsBST (delLeftmost l e r).2 := by
  induction l generalizing e r with
  | nil =>
    simp only [IsBST] at h
    simpa [delLeftmost] using h.2.2.2
  | node ll le lr ihl ihr =>
    simp only [IsBST] at h
    obtain ⟨hl, hr, bl, br⟩ := h
    simp only [delLeftmost, IsBST]
    refine ⟨?_, hr, ihl (e := le) bl, br⟩
    intro e' he'
    apply hl
    rw [inOrderL_delLeftmost ll le lr]
    exact List.mem_cons_of_mem _ he'

theorem inOrderL_eraseRoot (l : TSTree α) (e : α) (r : TSTree α) :
    inOrderL (eraseRoot (TSTree.node l e r)) = inOrderL l ++ inOrderL r := by
  match l, r with
  | TSTree.nil, r => simp [eraseRoot, inOrderL]
  | TSTree.node ll le lr, TSTree.nil => simp [eraseRoot, inOrderL]
  | TSTree.node ll le lr, TSTree.node rl re rr =>
    simp only [eraseRoot]
    rw [inOrderL, ← inOrderL_delLeftmost rl re rr]

theorem mem_inOrderL_eraseAux [LinearOrder α] {t : TSTree α} {elem e' : α}
    (h : e' ∈ inOrderL (eraseAux t elem)) : e' ∈ inOrderL t := by
  induction t with
  | nil => simpa [eraseAux] using h
  | node l e r ihl ihr =>
    simp only [eraseAux] at h
    by_cases heq : elem = e
    · rw [if_pos heq, inOrderL_eraseRoot] at h
      simp only [inOrderL, List.mem_append, List.mem_cons] at h ⊢
      rcases h with h | h
      · exact Or.inl h
      · exact Or.inr (Or.inr h)
    · rw [if_neg heq] at h
      by_cases hlt : elem < e
      · rw [if_pos hlt] at h
        simp only [inOrderL, List.mem_append, List.mem_cons] at h ⊢
        rcases h with h | h
        · exact Or.inl (ihl h)
        · exact Or.inr h
      · rw [if_neg hlt] at h
        simp only [inOrderL, List.mem_append, List.mem_cons] at h ⊢
        rcases h with h | h | h
        · exact Or.inl h
        · exact Or.inr (Or.inl h)
        · exact Or.inr (Or.inr (ihr h))

theorem IsBST_eraseRoot_set [LinearOrder α] {l : TSTree α} {e : α}
    {r : TSTree α} (h : IsBST (TSTree.node l e r)) :
    IsBST (eraseRoot (TSTree.node l e r)) := by
  simp only [IsBST] at h
  obtain ⟨hl, hr, bl, br⟩ := h
  match l, r with
  | TSTree.nil, r => simpa [eraseRoot] using br
  | TSTree.node ll le lr, TSTree.nil => simpa [eraseRoot] using bl
  | TSTree.node ll le lr, TSTree.node rl re rr =>
    simp only [eraseRoot, IsBST]
    have hdec := inOrderL_delLeftmost rl re rr
    have hmem : (delLeftmost rl re rr).1 ∈
        inOrderL (TSTree.node rl re rr) := by
      rw [hdec]; exact List.mem_cons_self _ _
    refine ⟨?_, ?_, bl, IsBST_delLeftmost_set br⟩
    · intro e' he'
      exact lt_trans (hl e' he') (hr _ hmem)
    · intro e' he'
      have hpw := pairwise_inOrderL br
      rw [hdec, List.pairwise_cons] at hpw
      exact hpw.1 e' he'

theorem not_mem_inOrderL_eraseAux [LinearOrder α] {t : TSTree α} {elem : α}
    (h : IsBST t) : elem ∉ inOrderL (eraseAux t elem) := by
  induction t with
  | nil => simp [eraseAux, inOrderL]
  | node l e r ihl ihr =>
    simp only [IsBST] at h
    obtain ⟨hl, hr, bl, br⟩ := h
    simp only [eraseAux]
    by_cases heq : elem = e
    · subst heq
      rw [if_pos rfl, inOrderL_eraseRoot]
      simp only [List.mem_append]
      rintro (hm | hm)
      · exact absurd (hl _ hm) (lt_irrefl _)
      · exact absurd (hr _ hm) (lt_irrefl _)
    · rw [if_neg heq]
      by_cases hlt : elem < e
      · rw [if_pos hlt]
        simp only [inOrderL, List.mem_append, List.mem_cons]
        rintro (hm | rfl | hm)
        · exact ihl bl hm
        · exact absurd rfl heq
        · exact absurd (lt_trans hlt (hr _ hm)) (lt_irrefl _)
      · rw [if_neg hlt]
        have hgt : e < elem := by
          rcases lt_trichotomy elem e with h' | h' | h'
          · exact absurd h' hlt
          · exact absurd h' heq
          · exact h'
        simp only [inOrderL, List.mem_append, List.mem_cons]
        rintro (hm | rfl | hm)
        · exact absurd (lt_trans hgt (hl _ hm)) (lt_irrefl _)
        · exact absurd rfl heq
        · exact ihr br hm

theorem IsBST_eraseAux_set [LinearOrder α] {t : TSTree α} {elem : α}
    (h : IsBST t) : IsBST (eraseAux t elem) := by
  induction t with
  | nil => simpa [eraseAux] using h
  | node l e r ihl ihr =>
    have h' := h
    simp only [IsBST] at h'
    obtain ⟨hl, hr, bl, br⟩ := h'
    simp only [eraseAux]
    by_cases heq : elem = e
    · rw [if_pos heq]
      exact IsBST_eraseRoot_set h
    · rw [if_neg heq]
      by_cases hlt : elem < e
      · rw [if_pos hlt]
        simp only [IsBST]
        exact ⟨fun e' he' => hl e' (mem_inOrderL_eraseAux he'), hr, ihl bl, br⟩
      · rw [if_neg hlt]
        simp only [IsBST]
        exact ⟨hl, fun e' he' => hr e' (mem_inOrderL_eraseAux he'), bl, ihr br⟩

theorem contains_eraseAux_self_set [LinearOrder α] {t : TSTree α}
    (h : IsBST t) (elem : α) : contains (eraseAux t elem) elem = false := by
  have h1 : IsBST (eraseAux t elem) := IsBST_eraseAux_set h
  rw [← Bool.not_eq_true, contains_iff_mem_set h1]
  exact not_mem_inOrderL_eraseAux h

theorem IsBST_applyOp_set [LinearOrder α] {t : TSTree α} (h : IsBST t)
    (op : SetOp α) : IsBST (applyOp t op) := by
  cases op with
  | ins e => exact IsBST_insertAux_set h
  | del e => exact IsBST_eraseAux_set h

theorem IsBST_applyOps_set [LinearOrder α] (ops : List (SetOp α)) :
    IsBST (applyOps ops) := by
  suffices h : ∀ (t : TSTree α), IsBST t → IsBST (ops.foldl applyOp t) by
    exact h TSTree.nil trivial
  induction ops with
  | nil => exact fun t ht => ht
  | cons op ops ih => exact fun t ht => ih _ (IsBST_applyOp_set ht op)

theorem toYield_firstInOrder_set (p : TSTree α) (anc : List (TSTree α)) :
    toYield (firstInOrder p anc) =
      inOrderL p ++ (anc.map fun a => toYieldCur (some a)).flatten := by
  induction p generalizing anc with
  | nil => simp [firstInOrder, toYield, toYieldCur, inOrderL]
  | node l e r ihl ihr =>
    cases l with
    | nil => simp [firstInOrder, toYield, toYieldCur, inOrderL]
    | node ll le lr =>
      rw [firstInOrder, ihl]
      simp [toYieldCur, inOrderL]

theorem WFIter_firstInOrder_set {p : TSTree α} {anc : List (TSTree α)}
    (hanc : ∀ a ∈ anc, a ≠ TSTree.nil) (hnil : p = TSTree.nil → anc = []) :
    WFIter (firstInOrder p anc) := by
  induction p generalizing anc with
  | nil =>
    refine ⟨fun _ => hnil rfl, ?_, ?_⟩
    · simp [firstInOrder]
    · simp [firstInOrder, hnil rfl]
  | node l e r ihl ihr =>
    cases l with
    | nil =>
      exact ⟨fun hcontra => by simp [firstInOrder] at hcontra,
        by simp [firstInOrder], by simpa [firstInOrder] using hanc⟩
    | node ll le lr =>
      rw [firstInOrder]
      apply ihl
      · intro a ha
        rcases List.mem_cons.mp ha with rfl | ha
        · exact nofun
        · exact hanc a ha
      · exact nofun

theorem WFIter_next_set {st : Option (TSTree α) × List (TSTree α)}
    (h : WFIter st) : WFIter (next st) := by
  obtain ⟨cur, anc⟩ := st
  obtain ⟨h1, h2, h3⟩ := h
  match cur with
  | none =>
    have : anc = [] := h1 rfl
    subst this
    exact ⟨fun _ => rfl, nofun, nofun⟩
  | some TSTree.nil => exact absurd rfl h2
  | some (TSTree.node l e TSTree.nil) =>
    match anc with
    | [] => exact ⟨fun _ => rfl, nofun, nofun⟩
    | a :: anc =>
      refine ⟨?_, ?_, ?_⟩
      · intro hcontra; simp [next] at hcontra
      · have := h3 a (List.mem_cons_self a anc)
        simpa [next] using this
      · intro b hb
        exact h3 b (List.mem_cons_of_mem a (by simpa [next] using hb))
  | some (TSTree.node l e (TSTree.node rl re rr)) =>
    rw [next]
    exact WFIter_firstInOrder_set h3 nofun

theorem toYield_next_set (l : TSTree α) (e : α) (r : TSTree α)
    (anc : List (TSTree α)) :
    toYield (some (TSTree.node l e r), anc) =
      e :: toYield (next (some (TSTree.node l e r), anc)) := by
  cases r with
  | nil =>
    match anc with
    | [] => simp [toYield, toYieldCur, next, inOrderL]
    | a :: anc => simp [toYield, toYieldCur, next, inOrderL]
  | node rl re rr =>
    rw [next, toYield_firstInOrder_set]
    simp [toYield, toYieldCur]

theorem collectElems_toYield {fuel : Nat} :
    ∀ st : Option (TSTree α) × List (TSTree α), WFIter st →
      (toYield st).length ≤ fuel → collectElems fuel st = toYield st := by
  induction fuel with
  | zero =>
    intro st _ hlen
    have : toYield st = [] := List.eq_nil_of_length_eq_zero (by omega)
    rw [this]; rfl
  | succ f ih =>
    intro st hwf hlen
    obtain ⟨cur, anc⟩ := st
    match cur with
    | none =>
      have : anc = [] := hwf.1 rfl
      subst this
      simp [collectElems, toYield, toYieldCur]
    | some TSTree.nil => exact absurd rfl hwf.2.1
    | some (TSTree.node l e r) =>
      rw [collectElems, toYield_next_set]
      congr 1
      apply ih _ (WFIter_next_set hwf)
      rw [toYield_next_set l e r anc] at hlen
      simpa using hlen

theorem toYield_beginIter_set (t : TSTree α) :
    toYield (beginIter t) = inOrderL t := by
  rw [beginIter, toYield_firstInOrder_set]
  simp

theorem WFIter_beginIter_set (t : TSTree α) : WFIter (beginIter t) :=
  WFIter_firstInOrder_set nofun (fun _ => rfl)

theorem collectElems_beginIter (t : TSTree α) :
    collectElems (inOrderL t).length (beginIter t) = inOrderL t := by
  rw [← toYield_beginIter_set t]
  exact collectElems_toYield _ (WFIter_beginIter_set t) (by rw [toYield_beginIter_set])

end TS

/-- C8: for every sequence of insert/erase operations on a `TreeMap` or
`TreeSet`, iterating with `begin()`/`next()` yields exactly the in-order
key sequence, which is strictly ascending in the comparator order;
`erase(k)` followed by `contains(k)` returns false; erasing a key whose
node has two children promotes the in-order successor (the leftmost key of
the right subtree) to the root; and inserting an element already contained
in a `TreeSet` returns the structure unchanged, leaving its size (element
count) unchanged. -/
theorem claim_C8_bst_containers (K V : Type) [LinearOrder K] :
    (∀ ops : List (TM.MapOp K V),
      TM.collectKeys (TM.keysInOrder (TM.applyOps ops)).length
          (TM.beginIter (TM.applyOps ops)) = TM.keysInOrder (TM.applyOps ops)
      ∧ List.Pairwise (· < ·) (TM.keysInOrder (TM.applyOps ops))) ∧
    (∀ (ops : List (TM.MapOp K V)) (key : K),
      TM.contains (TM.eraseAux (TM.applyOps ops) key) key = false) ∧
    (∀ (l : TM.TMTree K V) (k : K) (v : V) (rl : TM.TMTree K V) (rk : K)
        (rv : V) (rr : TM.TMTree K V), l ≠ TM.TMTree.nil →
      TM.eraseAux (TM.TMTree.node l k v (TM.TMTree.node rl rk rv rr)) k =
          TM.TMTree.node l (TM.delLeftmost rl rk rv rr).1.1
            (TM.delLeftmost rl rk rv rr).1.2 (TM.delLeftmost rl rk rv rr).2 ∧
        (TM.inOrderP (TM.TMTree.node rl rk rv rr)).head? =
          some (TM.delLeftmost rl rk rv rr).1) ∧
    (∀ ops : List (TS.SetOp K),
      TS.collectElems (TS.inOrderL (TS.applyOps ops)).length
          (TS.beginIter (TS.applyOps ops)) = TS.inOrderL (TS.applyOps ops)
      ∧ List.Pairwise (· < ·) (TS.inOrderL (TS.applyOps ops))) ∧
    (∀ (ops : List (TS.SetOp K)) (e : K),
      TS.contains (TS.eraseAux (TS.applyOps ops) e) e = false) ∧
    (∀ (t : TS.TSTree K) (e : K), TS.contains t e = true →
      TS.insertAux e t = t ∧
        (TS.inOrderL (TS.insertAux e t)).length = (TS.inOrderL t).length) := by
  refine ⟨?_, ?_, ?_, ?_, ?_, ?_⟩
  · intro ops
    exact ⟨TM.collectKeys_beginIter _,
      TM.pairwise_keysInOrder (TM.IsBST_applyOps ops)⟩
  · intro ops key
    exact TM.contains_eraseAux_self (TM.IsBST_applyOps ops) key
  · intro l k v rl rk rv rr hl
    constructor
    · cases l with
      | nil => exact absurd rfl hl
      | node la ka va ra => simp [TM.eraseAux, TM.eraseRoot]
    · rw [TM.inOrderP_delLeftmost rl rk rv rr]
      rfl
  · intro ops
    exact ⟨TS.collectElems_beginIter _,
      TS.pairwise_inOrderL (TS.IsBST_applyOps_set ops)⟩
  · intro ops e
    exact TS.contains_eraseAux_self_set (TS.IsBST_applyOps_set ops) e
  · intro t e h
    exact ⟨TS.insertAux_of_contains h, by rw [TS.insertAux_of_contains h]⟩

/-- Witness for C8: the hypothesis-bearing conjuncts applied at concrete
inputs — erasing the two-child root `5` of a concrete map, and re-inserting
the already-present element `3` into a concrete set. -/
theorem claim_C8_bst_containers_witness :
    ((TM.TMTree.node TM.TMTree.nil 1 10 TM.TMTree.nil : TM.TMTree Nat Nat) ≠
        TM.TMTree.nil ∧
      TM.eraseAux (TM.TMTree.node
          (TM.TMTree.node TM.TMTree.nil 1 10 TM.TMTree.nil) 5 50
          (TM.TMTree.node TM.TMTree.nil 7 70 TM.TMTree.nil)) 5 =
          TM.TMTree.node (TM.TMTree.node TM.TMTree.nil 1 10 TM.TMTree.nil)
            (TM.delLeftmost TM.TMTree.nil 7 70 TM.TMTree.nil).1.1
            (TM.delLeftmost TM.TMTree.nil 7 70 TM.TMTree.nil).1.2
            (TM.delLeftmost TM.TMTree.nil 7 70 TM.TMTree.nil).2 ∧
        (TM.inOrderP (TM.TMTree.node TM.TMTree.nil 7 70 TM.TMTree.nil)).head? =
          some (TM.delLeftmost TM.TMTree.nil 7 70 TM.TMTree.nil).1) ∧
    (TS.contains (TS.TSTree.node TS.TSTree.nil 3 TS.TSTree.nil : TS.TSTree Nat)
        3 = true ∧
      TS.insertAux 3 (TS.TSTree.node TS.TSTree.nil 3 TS.TSTree.nil) =
          TS.TSTree.node TS.TSTree.nil 3 TS.TSTree.nil ∧
        (TS.inOrderL (TS.insertAux 3
            (TS.TSTree.node TS.TSTree.nil 3 TS.TSTree.nil))).length =
          (TS.inOrderL (TS.TSTree.node TS.TSTree.nil 3 TS.TSTree.nil)).length) :=
  ⟨⟨by decide, (claim_C8_bst_containers Nat Nat).2.2.1 _ 5 50 _ 7 70 _
      (by decide)⟩,
    ⟨by decide, (claim_C8_bst_containers Nat Nat).2.2.2.2.2 _ 3 (by decide)⟩⟩

/-!
## §4.3 — `HashMap.h` (claim C7)

Namespace `HM`.  Bins are association lists (newest node at the front, as
in the C++ `_bins[idx] = new Node(key, value, _bins[idx])`); the hash
function is a parameter.  The C++ growth test
`100 * ((float) _entryCount) / _binCount > 80` is modelled as the exact
rational comparison `100 * entryCount > 80 * binCount`; for the integer
magnitudes a table can reach, the float quotient rounds to 80 only when the
rational value is exactly 80, so the two tests agree.
-/

namespace HM

/-- `HashMap<K, V>`: the bin array and the entry counter. -/
structure HashMap (K V : Type) where
  bins : List (List (K × V))
  entryCount : Nat
deriving DecidableEq, Repr

/-- `INITIAL_BIN_COUNT`. -/
def INITIAL_BIN_COUNT : Nat := 8

/-- `MAX_OCCUPATION` (percent). -/
def MAX_OCCUPATION : Nat := 80

variable {K V : Type}

/-- `HashMap()`. -/
def emptyMap : HashMap K V := ⟨List.replicate INITIAL_BIN_COUNT [], 0⟩

/-- `findNode(key, n)` (via `findWithPrevious`): the first node of the bin
whose key equals `key`. -/
def findNode [DecidableEq K] (key : K) (bin : List (K × V)) : Option (K × V) :=
  bin.find? (fun n => n.1 = key)

/-- In-place overwrite `n->_value = value` of the first node with the given
key. -/
def setVal [DecidableEq K] (key : K) (value : V) : List (K × V) → List (K × V)
  | [] => []
  | n :: rest =>
      if n.1 = key then (n.1, value) :: rest else n :: setVal key value rest

/-- Unlinking (`prev->_next = n->_next`) of the first node with the given
key. -/
def eraseBin [DecidableEq K] (key : K) : List (K × V) → List (K × V)
  | [] => []
  | n :: rest => if n.1 = key then rest else n :: eraseBin key rest

/-- One step of the rehash loop of `grow()`: move a node to the front of
its new bin (`aux->_next = _bins[idx]; _bins[idx] = aux`). -/
def pushFront (hash : K → Nat) (binCount : Nat)
    (acc : List (List (K × V))) (n : K × V) : List (List (K × V)) :=
  let idx := hash n.1 % binCount
  acc.set idx (n :: acc.getD idx [])

/-- `grow()`: double the bin count and move every node of every old bin
(bins in index order, nodes from the head) into the new array. -/
def grow (hash : K → Nat) (hm : HashMap K V) : HashMap K V :=
  ⟨hm.bins.foldl
      (fun acc bin => bin.foldl (pushFront hash (hm.bins.length * 2)) acc)
      (List.replicate (hm.bins.length * 2) []),
    hm.entryCount⟩

/-- The second half of `insert(key, value)` (after the possible growth):
locate the bin, overwrite the value if the key exists there, else prepend a
new node and count it. -/
def insertCore [DecidableEq K] (hash : K → Nat) (hm : HashMap K V) (key : K)
    (value : V) : HashMap K V :=
  let idx := hash key % hm.bins.length
  let bin := hm.bins.getD idx []
  match findNode key bin with
  | some _ => ⟨hm.bins.set idx (setVal key value bin), hm.entryCount⟩
  | none => ⟨hm.bins.set idx ((key, value) :: bin), hm.entryCount + 1⟩

/-- `insert(key, value)`: grow first when the load factor exceeds 80%, then
insert. -/
def insert [DecidableEq K] (hash : K → Nat) (hm : HashMap K V) (key : K)
    (value : V) : HashMap K V :=
  insertCore hash
    (if 100 * hm.entryCount > MAX_OCCUPATION * hm.bins.length
      then grow hash hm else hm) key value

/-- `erase(key)`. -/
def erase [DecidableEq K] (hash : K → Nat) (hm : HashMap K V) (key : K) :
    HashMap K V :=
  let idx := hash key % hm.bins.length
  let bin := hm.bins.getD idx []
  match findNode key bin with
  | some _ => ⟨hm.bins.set idx (eraseBin key bin), hm.entryCount - 1⟩
  | none => hm

/-- `at(key)`: throws `BadKeyException` if absent. -/
def atKey [DecidableEq K] (hash : K → Nat) (hm : HashMap K V) (key : K) :
    Except ADTError V :=
  match findNode key (hm.bins.getD (hash key % hm.bins.length) []) with
  | none => .error .badKey
  | some n => .ok n.2

/-- `size()`. -/
def size (hm : HashMap K V) : Nat := hm.entryCount

/-- All `(key, value)` entries, in bin order (specification helper). -/
def entries (hm : HashMap K V) : List (K × V) := hm.bins.flatten

/-- All keys currently present (specification helper). -/
def keysOf (hm : HashMap K V) : List K := (entries hm).map Prod.fst

/-- A sequence of map operations. -/
inductive HOp (K V : Type) where
  | ins : K → V → HOp K V
  | del : K → HOp K V
deriving DecidableEq, Repr

/-- `insert` / `erase` as operations. -/
def applyOp [DecidableEq K] (hash : K → Nat) (hm : HashMap K V) :
    HOp K V → HashMap K V
  | HOp.ins k v => insert hash hm k v
  | HOp.del k => erase hash hm k

/-- Run a sequence of operations from a starting map. -/
def applyOpsFrom [DecidableEq K] (hash : K → Nat) (hm : HashMap K V)
    (ops : List (HOp K V)) : HashMap K V :=
  ops.foldl (applyOp hash) hm

/-- A `HashMap` built by a sequence of `insert`/`erase` calls. -/
def applyOps [DecidableEq K] (hash : K → Nat) (ops : List (HOp K V)) :
    HashMap K V :=
  applyOpsFrom hash emptyMap ops

/-- The representation invariant of a reachable `HashMap`: at least one
bin, a correct entry counter, pairwise-distinct keys, and every node
sitting in the bin its hash selects. -/
def Inv (hash : K → Nat) (hm : HashMap K V) : Prop :=
  0 < hm.bins.length ∧
  hm.entryCount = (entries hm).length ∧
  (keysOf hm).Nodup ∧
  ∀ i : Nat, ∀ n ∈ hm.bins.getD i [], hash n.1 % hm.bins.length = i

end HM

section HMTests

example : HM.atKey id (HM.insert id (HM.insert id HM.emptyMap 1 10) 1 20) 1 =
    Except.ok (20 : Nat) := rfl

example : HM.size (HM.applyOps id [HM.HOp.ins 1 10, HM.HOp.ins (9 : Nat) 90,
    HM.HOp.ins 1 11, HM.HOp.del 9, HM.HOp.del (7 : Nat)]) = 1 := rfl

example : (HM.grow id (HM.applyOps id [HM.HOp.ins (3 : Nat) (30 : Nat),
    HM.HOp.ins 11 110])).bins.length = 16 := rfl

example : HM.entries (HM.grow id (HM.applyOps id [HM.HOp.ins (3 : Nat)
    (30 : Nat), HM.HOp.ins 11 110])) = [(3, 30), (11, 110)] := rfl

end HMTests

namespace HM

variable {K V : Type}

theorem getD_set_self {γ : Type} (l : List γ) (i : Nat) (x d : γ)
    (h : i < l.length) : (l.set i x).getD i d = x := by
  induction l generalizing i with
  | nil => simp at h
  | cons a l ih =>
    cases i with
    | zero => rfl
    | succ i => exact ih i (by simpa using h)

theorem getD_set_ne {γ : Type} (l : List γ) (i j : Nat) (x d : γ)
    (h : i ≠ j) : (l.set i x).getD j d = l.getD j d := by
  induction l generalizing i j with
  | nil => rfl
  | cons a l ih =>
    cases i with
    | zero =>
      cases j with
      | zero => exact absurd rfl h
      | succ j => rfl
    | succ i =>
      cases j with
      | zero => rfl
      | succ j => exact ih i j (fun hc => h (by rw [hc]))

theorem getD_eq_of_le {γ : Type} (l : List γ) (i : Nat) (d : γ)
    (h : l.length ≤ i) : l.getD i d = d := by
  induction l generalizing i with
  | nil => rfl
  | cons a l ih =>
    cases i with
    | zero => simp at h
    | succ i => exact ih i (by simpa using h)

theorem lt_length_of_mem_getD {β : Type} {l : List (List β)} {i : Nat}
    {x : β} (h : x ∈ l.getD i []) : i < l.length := by
  by_contra hc
  rw [getD_eq_of_le l i [] (by omega)] at h
  exact absurd h (List.not_mem_nil x)

theorem getD_mem_of_lt {β : Type} (l : List (List β)) (i : Nat)
    (h : i < l.length) : l.getD i [] ∈ l := by
  induction l generalizing i with
  | nil => simp at h
  | cons a l ih =>
    cases i with
    | zero => exact List.mem_cons_self _ _
    | succ i => exact List.mem_cons_of_mem _ (ih i (by simpa using h))

theorem exists_getD_of_mem {β : Type} {l : List (List β)} {bin : List β}
    (h : bin ∈ l) : ∃ i, l.getD i [] = bin := by
  induction l with
  | nil => exact absurd h (List.not_mem_nil bin)
  | cons a l ih =>
    rcases List.mem_cons.mp h with rfl | h
    · exact ⟨0, rfl⟩
    · obtain ⟨i, hi⟩ := ih h
      exact ⟨i + 1, hi⟩

theorem flatten_set_decomp {β : Type} (bins : List (List β)) (i : Nat)
    (b' : List β) (h : i < bins.length) :
    ∃ pre post : List β,
      bins.flatten = pre ++ (bins.getD i [] ++ post) ∧
      (bins.set i b').flatten = pre ++ (b' ++ post) := by
  induction bins generalizing i with
  | nil => simp at h
  | cons b bins ih =>
    cases i with
    | zero =>
      exact ⟨[], bins.flatten, by simp [List.flatten_cons],
        by simp [List.flatten_cons]⟩
    | succ i =>
      obtain ⟨pre, post, h1, h2⟩ := ih i (by simpa using h)
      refine ⟨b ++ pre, post, ?_, ?_⟩
      · rw [List.flatten_cons, h1]; simp
      · rw [List.set_cons_succ, List.flatten_cons, h2]; simp

theorem mem_entries_iff {hm : HashMap K V} {x : K × V} :
    x ∈ entries hm ↔ ∃ i, x ∈ hm.bins.getD i [] := by
  rw [entries, List.mem_flatten]
  constructor
  · rintro ⟨bin, hbin, hx⟩
    obtain ⟨i, hi⟩ := exists_getD_of_mem hbin
    exact ⟨i, hi ▸ hx⟩
  · rintro ⟨i, hx⟩
    exact ⟨hm.bins.getD i [], getD_mem_of_lt _ _ (lt_length_of_mem_getD hx), hx⟩

theorem findNode_some [DecidableEq K] {key : K} {bin : List (K × V)}
    {n : K × V} (h : findNode key bin = some n) : n.1 = key ∧ n ∈ bin := by
  refine ⟨?_, List.mem_of_find?_eq_some h⟩
  have := List.find?_some h
  simpa using this

theorem findNode_isSome_iff [DecidableEq K] {key : K} {bin : List (K × V)} :
    (findNode key bin).isSome ↔ ∃ v, (key, v) ∈ bin := by
  rw [findNode, List.find?_isSome]
  constructor
  · rintro ⟨n, hn, hkey⟩
    simp at hkey
    exact ⟨n.2, by rwa [← hkey, Prod.mk.eta]⟩
  · rintro ⟨v, hv⟩
    exact ⟨(key, v), hv, by simp⟩

theorem setVal_map_fst [DecidableEq K] (key : K) (value : V)
    (bin : List (K × V)) :
    (setVal key value bin).map Prod.fst = bin.map Prod.fst := by
  induction bin with
  | nil => rfl
  | cons n rest ih =>
    by_cases h : n.1 = key
    · simp [setVal, h]
    · simp [setVal, h, ih]

theorem setVal_length [DecidableEq K] (key : K) (value : V)
    (bin : List (K × V)) : (setVal key value bin).length = bin.length := by
  have := congrArg List.length (setVal_map_fst key value bin)
  simpa using this

theorem mem_setVal_self [DecidableEq K] {key : K} {bin : List (K × V)}
    (h : (findNode key bin).isSome) (value : V) :
    (key, value) ∈ setVal key value bin := by
  induction bin with
  | nil => simp [findNode] at h
  | cons n rest ih =>
    by_cases hk : n.1 = key
    · simp [setVal, hk]
    · rw [setVal, if_neg hk]
      refine List.mem_cons_of_mem _ (ih ?_)
      rwa [findNode, List.find?_cons_of_neg _ (by simpa using hk)] at h

theorem mem_setVal_of_ne [DecidableEq K] {key k : K} {value v : V}
    {bin : List (K × V)} (hne : k ≠ key) :
    (k, v) ∈ setVal key value bin ↔ (k, v) ∈ bin := by
  induction bin with
  | nil => rfl
  | cons n rest ih =>
    by_cases hk : n.1 = key
    · rw [setVal, if_pos hk]
      simp only [List.mem_cons, ih]
      constructor
      · rintro (hx | hx)
        · exact absurd ((congrArg Prod.fst hx).trans hk) hne
        · exact Or.inr hx
      · rintro (rfl | hx)
        · exact absurd hk hne
        · exact Or.inr hx
    · rw [setVal, if_neg hk]
      simp [ih]

theorem mem_setVal_fst [DecidableEq K] {key : K} {value : V}
    {bin : List (K × V)} {m : K × V} (h : m ∈ setVal key value bin) :
    ∃ m' ∈ bin, m'.1 = m.1 := by
  induction bin with
  | nil => exact absurd h (List.not_mem_nil m)
  | cons n rest ih =>
    by_cases hk : n.1 = key
    · rw [setVal, if_pos hk] at h
      rcases List.mem_cons.mp h with rfl | h
      · exact ⟨n, List.mem_cons_self _ _, rfl⟩
      · exact ⟨m, List.mem_cons_of_mem _ h, rfl⟩
    · rw [setVal, if_neg hk] at h
      rcases List.mem_cons.mp h with rfl | h
      · exact ⟨m, List.mem_cons_self _ _, rfl⟩
      · obtain ⟨m', hm', he⟩ := ih h
        exact ⟨m', List.mem_cons_of_mem _ hm', he⟩

theorem eraseBin_sublist [DecidableEq K] (key : K) (bin : List (K × V)) :
    List.Sublist (eraseBin key bin) bin := by
  induction bin with
  | nil => exact List.Sublist.refl _
  | cons n rest ih =>
    by_cases hk : n.1 = key
    · rw [eraseBin, if_pos hk]
      exact List.sublist_cons_self n rest
    · rw [eraseBin, if_neg hk]
      exact List.Sublist.cons₂ n ih

theorem length_eraseBin [DecidableEq K] {key : K} {bin : List (K × V)}
    (h : (findNode key bin).isSome) :
    (eraseBin key bin).length + 1 = bin.length := by
  induction bin with
  | nil => simp [findNode] at h
  | cons n rest ih =>
    by_cases hk : n.1 = key
    · rw [eraseBin, if_pos hk]
      simp
    · rw [eraseBin, if_neg hk]
      rw [findNode, List.find?_cons_of_neg _ (by simpa using hk)] at h
      simp only [List.length_cons]
      rw [← ih h]

theorem mem_eraseBin_of_ne [DecidableEq K] {key k : K} {v : V}
    {bin : List (K × V)} (hne : k ≠ key) (h : (k, v) ∈ bin) :
    (k, v) ∈ eraseBin key bin := by
  induction bin with
  | nil => exact absurd h (List.not_mem_nil _)
  | cons n rest ih =>
    by_cases hk : n.1 = key
    · rw [eraseBin, if_pos hk]
      rcases List.mem_cons.mp h with rfl | h
      · exact absurd hk hne
      · exact h
    · rw [eraseBin, if_neg hk]
      rcases List.mem_cons.mp h with rfl | h
      · exact List.mem_cons_self _ _
      · exact List.mem_cons_of_mem _ (ih h)

end HM

namespace HM

variable {K V : Type}

theorem length_pushFront (hash : K → Nat) (c : Nat)
    (acc : List (List (K × V))) (n : K × V) :
    (pushFront hash c acc n).length = acc.length := List.length_set _ _ _

theorem flatten_pushFront_perm (hash : K → Nat) (c : Nat)
    {acc : List (List (K × V))} (hc : acc.length = c) (h0 : 0 < c)
    (n : K × V) :
    List.Perm (pushFront hash c acc n).flatten (n :: acc.flatten) := by
  have hidx : hash n.1 % c < acc.length := by
    rw [hc]; exact Nat.mod_lt _ h0
  obtain ⟨pre, post, h1, h2⟩ := flatten_set_decomp acc (hash n.1 % c)
    (n :: acc.getD (hash n.1 % c) []) hidx
  rw [show pushFront hash c acc n =
    acc.set (hash n.1 % c) (n :: acc.getD (hash n.1 % c) []) from rfl]
  rw [h2, h1]
  exact List.perm_middle

theorem bucket_pushFront (hash : K → Nat) (c : Nat)
    {acc : List (List (K × V))} (hc : acc.length = c) (h0 : 0 < c)
    (hb : ∀ i : Nat, ∀ m ∈ acc.getD i [], hash m.1 % c = i) (n : K × V) :
    ∀ i : Nat, ∀ m ∈ (pushFront hash c acc n).getD i [], hash m.1 % c = i := by
  intro i m hm
  rw [show pushFront hash c acc n =
    acc.set (hash n.1 % c) (n :: acc.getD (hash n.1 % c) []) from rfl] at hm
  by_cases hi : i = hash n.1 % c
  · subst hi
    rw [getD_set_self _ _ _ _ (by rw [hc]; exact Nat.mod_lt _ h0)] at hm
    rcases List.mem_cons.mp hm with rfl | hm
    · rfl
    · exact hb _ m hm
  · rw [getD_set_ne _ _ _ _ _ (Ne.symm hi)] at hm
    exact hb i m hm

theorem foldl_pushFront_spec (hash : K → Nat) (c : Nat)
    (ns : List (K × V)) :
    ∀ acc : List (List (K × V)), acc.length = c → 0 < c →
      (ns.foldl (pushFront hash c) acc).length = c ∧
      List.Perm (ns.foldl (pushFront hash c) acc).flatten
        (ns ++ acc.flatten) ∧
      ((∀ i : Nat, ∀ m ∈ acc.getD i [], hash m.1 % c = i) →
        ∀ i : Nat, ∀ m ∈ (ns.foldl (pushFront hash c) acc).getD i [],
          hash m.1 % c = i) := by
  induction ns with
  | nil =>
    intro acc hc h0
    exact ⟨hc, by simp, fun hb => hb⟩
  | cons n ns ih =>
    intro acc hc h0
    have hc' : (pushFront hash c acc n).length = c := by
      rw [length_pushFront, hc]
    obtain ⟨l1, p1, b1⟩ := ih (pushFront hash c acc n) hc' h0
    refine ⟨l1, ?_, fun hb => b1 (bucket_pushFront hash c hc h0 hb n)⟩
    have hstep : List.Perm (ns ++ (pushFront hash c acc n).flatten)
        (ns ++ (n :: acc.flatten)) :=
      List.Perm.append_left ns (flatten_pushFront_perm hash c hc h0 n)
    have hmid : List.Perm (ns ++ (n :: acc.flatten))
        ((n :: ns) ++ acc.flatten) := List.perm_middle
    exact (p1.trans hstep).trans hmid

theorem foldl_bins_spec (hash : K → Nat) (c : Nat)
    (bs : List (List (K × V))) :
    ∀ acc : List (List (K × V)), acc.length = c → 0 < c →
      (bs.foldl (fun a bin => bin.foldl (pushFront hash c) a) acc).length = c ∧
      List.Perm
        (bs.foldl (fun a bin => bin.foldl (pushFront hash c) a) acc).flatten
        (bs.flatten ++ acc.flatten) ∧
      ((∀ i : Nat, ∀ m ∈ acc.getD i [], hash m.1 % c = i) →
        ∀ i : Nat, ∀ m ∈
          (bs.foldl (fun a bin => bin.foldl (pushFront hash c) a)
            acc).getD i [], hash m.1 % c = i) := by
  induction bs with
  | nil =>
    intro acc hc h0
    exact ⟨hc, by simp, fun hb => hb⟩
  | cons bin bs ih =>
    intro acc hc h0
    obtain ⟨il, ip, ib⟩ := foldl_pushFront_spec hash c bin acc hc h0
    obtain ⟨l1, p1, b1⟩ := ih (bin.foldl (pushFront hash c) acc) il h0
    refine ⟨l1, ?_, fun hb => b1 (ib hb)⟩
    have hstep : List.Perm
        (bs.flatten ++ (bin.foldl (pushFront hash c) acc).flatten)
        (bs.flatten ++ (bin ++ acc.flatten)) :=
      List.Perm.append_left bs.flatten ip
    have hmid : List.Perm (bs.flatten ++ (bin ++ acc.flatten))
        ((bin ++ bs.flatten) ++ acc.flatten) := by
      rw [← List.append_assoc]
      exact List.Perm.append_right acc.flatten List.perm_append_comm
    have hfin : (bin ++ bs.flatten) ++ acc.flatten =
        (bin :: bs).flatten ++ acc.flatten := by rw [List.flatten_cons]
    exact ((p1.trans hstep).trans hmid).trans (hfin ▸ List.Perm.refl _)

theorem getD_replicate_nil (n i : Nat) :
    (List.replicate n ([] : List (K × V))).getD i [] = [] := by
  induction n generalizing i with
  | zero => rfl
  | succ n ih =>
    cases i with
    | zero => rfl
    | succ i => exact ih i

theorem flatten_replicate_nil (n : Nat) :
    (List.replicate n ([] : List (K × V))).flatten = [] := by
  induction n with
  | zero => rfl
  | succ n ih => rw [List.replicate_succ, List.flatten_cons, ih]; rfl

theorem grow_spec (hash : K → Nat) (hm : HashMap K V)
    (h0 : 0 < hm.bins.length) :
    (grow hash hm).bins.length = 2 * hm.bins.length ∧
    List.Perm (entries (grow hash hm)) (entries hm) ∧
    ∀ i : Nat, ∀ m ∈ (grow hash hm).bins.getD i [],
      hash m.1 % (2 * hm.bins.length) = i := by
  have hc0 : 0 < hm.bins.length * 2 := by omega
  obtain ⟨l1, p1, b1⟩ := foldl_bins_spec hash (hm.bins.length * 2) hm.bins
    (List.replicate (hm.bins.length * 2) []) (List.length_replicate _ _) hc0
  have hcomm : hm.bins.length * 2 = 2 * hm.bins.length := Nat.mul_comm _ _
  refine ⟨by rw [show (grow hash hm).bins =
      hm.bins.foldl (fun a bin => bin.foldl
        (pushFront hash (hm.bins.length * 2)) a)
        (List.replicate (hm.bins.length * 2) []) from rfl, l1, hcomm], ?_, ?_⟩
  · have hfin : hm.bins.flatten ++
        (List.replicate (hm.bins.length * 2) ([] : List (K × V))).flatten =
          entries hm := by rw [flatten_replicate_nil]; simp [entries]
    exact p1.trans (hfin ▸ List.Perm.refl _)
  · intro i m hm'
    rw [← hcomm]
    refine b1 ?_ i m hm'
    intro j n hn
    rw [getD_replicate_nil] at hn
    exact absurd hn (List.not_mem_nil n)

theorem Inv_empty (hash : K → Nat) : Inv hash (emptyMap : HashMap K V) := by
  refine ⟨by simp [emptyMap, INITIAL_BIN_COUNT], ?_, ?_, ?_⟩
  · show 0 = (entries (emptyMap : HashMap K V)).length
    rw [show entries (emptyMap : HashMap K V) =
      (List.replicate INITIAL_BIN_COUNT ([] : List (K × V))).flatten from rfl,
      flatten_replicate_nil]
    rfl
  · show (keysOf (emptyMap : HashMap K V)).Nodup
    rw [show keysOf (emptyMap : HashMap K V) = (entries (emptyMap :
        HashMap K V)).map Prod.fst from rfl,
      show entries (emptyMap : HashMap K V) =
        (List.replicate INITIAL_BIN_COUNT ([] : List (K × V))).flatten from
          rfl,
      flatten_replicate_nil]
    exact List.nodup_nil
  · intro i n hn
    rw [show (emptyMap : HashMap K V).bins =
      List.replicate INITIAL_BIN_COUNT [] from rfl, getD_replicate_nil] at hn
    exact absurd hn (List.not_mem_nil n)

theorem Inv_grow (hash : K → Nat) {hm : HashMap K V} (h : Inv hash hm) :
    Inv hash (grow hash hm) := by
  obtain ⟨h0, hcount, hnd, hbucket⟩ := h
  obtain ⟨l1, p1, b1⟩ := grow_spec hash hm h0
  refine ⟨by rw [l1]; omega, ?_, ?_, ?_⟩
  · show hm.entryCount = (entries (grow hash hm)).length
    rw [hcount, p1.length_eq]
  · have hperm : List.Perm (keysOf (grow hash hm)) (keysOf hm) :=
      p1.map Prod.fst
    rw [hperm.nodup_iff]
    exact hnd
  · intro i m hmem
    rw [l1]
    exact b1 i m hmem

end HM

namespace HM

variable {K V : Type}

theorem insertCore_eq_found [DecidableEq K] {hash : K → Nat}
    {hm : HashMap K V} {key : K} {n : K × V}
    (hfind : findNode key
      (hm.bins.getD (hash key % hm.bins.length) []) = some n) (value : V) :
    insertCore hash hm key value =
      ⟨hm.bins.set (hash key % hm.bins.length)
          (setVal key value (hm.bins.getD (hash key % hm.bins.length) [])),
        hm.entryCount⟩ := by
  simp only [insertCore, hfind]

theorem insertCore_eq_new [DecidableEq K] {hash : K → Nat}
    {hm : HashMap K V} {key : K}
    (hfind : findNode key
      (hm.bins.getD (hash key % hm.bins.length) []) = none) (value : V) :
    insertCore hash hm key value =
      ⟨hm.bins.set (hash key % hm.bins.length)
          ((key, value) :: hm.bins.getD (hash key % hm.bins.length) []),
        hm.entryCount + 1⟩ := by
  simp only [insertCore, hfind]

theorem erase_eq_found [DecidableEq K] {hash : K → Nat} {hm : HashMap K V}
    {key : K} {n : K × V}
    (hfind : findNode key
      (hm.bins.getD (hash key % hm.bins.length) []) = some n) :
    erase hash hm key =
      ⟨hm.bins.set (hash key % hm.bins.length)
          (eraseBin key (hm.bins.getD (hash key % hm.bins.length) [])),
        hm.entryCount - 1⟩ := by
  simp only [erase, hfind]

theorem erase_eq_none [DecidableEq K] {hash : K → Nat} {hm : HashMap K V}
    {key : K}
    (hfind : findNode key
      (hm.bins.getD (hash key % hm.bins.length) []) = none) :
    erase hash hm key = hm := by
  simp only [erase, hfind]

theorem not_mem_entries_of_findNode_none [DecidableEq K] {hash : K → Nat}
    {hm : HashMap K V} (h : Inv hash hm) {key : K}
    (hfind : findNode key
      (hm.bins.getD (hash key % hm.bins.length) []) = none) (v : V) :
    (key, v) ∉ entries hm := by
  obtain ⟨h0, hcount, hnd, hbucket⟩ := h
  intro hv
  obtain ⟨i, hi⟩ := mem_entries_iff.mp hv
  have hieq : i = hash key % hm.bins.length := by
    have := hbucket i _ hi
    simpa using this.symm
  subst hieq
  have : (findNode key
      (hm.bins.getD (hash key % hm.bins.length) [])).isSome :=
    findNode_isSome_iff.mpr ⟨v, hi⟩
  rw [hfind] at this
  exact absurd this (by simp)

theorem Inv_insertCore [DecidableEq K] (hash : K → Nat) {hm : HashMap K V}
    (h : Inv hash hm) (key : K) (value : V) :
    Inv hash (insertCore hash hm key value) := by
  have hInv := h
  obtain ⟨h0, hcount, hnd, hbucket⟩ := h
  have hidxlt : hash key % hm.bins.length < hm.bins.length :=
    Nat.mod_lt _ h0
  cases hfind : findNode key
      (hm.bins.getD (hash key % hm.bins.length) []) with
  | some n =>
    rw [insertCore_eq_found hfind value]
    obtain ⟨pre, post, h1, h2⟩ := flatten_set_decomp hm.bins
      (hash key % hm.bins.length)
      (setVal key value (hm.bins.getD (hash key % hm.bins.length) []))
      hidxlt
    refine ⟨by simpa using h0, ?_, ?_, ?_⟩
    · show hm.entryCount = (entries
        ⟨hm.bins.set (hash key % hm.bins.length)
          (setVal key value (hm.bins.getD (hash key % hm.bins.length) [])),
          hm.entryCount⟩).length
      rw [show entries ⟨hm.bins.set (hash key % hm.bins.length)
          (setVal key value (hm.bins.getD (hash key % hm.bins.length) [])),
          hm.entryCount⟩ = (hm.bins.set (hash key % hm.bins.length)
          (setVal key value
            (hm.bins.getD (hash key % hm.bins.length) []))).flatten from rfl,
        h2]
      rw [hcount, show entries hm = hm.bins.flatten from rfl, h1]
      simp [setVal_length]
    · show ((entries ⟨hm.bins.set (hash key % hm.bins.length)
        (setVal key value (hm.bins.getD (hash key % hm.bins.length) [])),
        hm.entryCount⟩).map Prod.fst).Nodup
      rw [show entries ⟨hm.bins.set (hash key % hm.bins.length)
          (setVal key value (hm.bins.getD (hash key % hm.bins.length) [])),
          hm.entryCount⟩ = (hm.bins.set (hash key % hm.bins.length)
          (setVal key value
            (hm.bins.getD (hash key % hm.bins.length) []))).flatten from rfl,
        h2]
      have hk : keysOf hm = (pre ++ ((hm.bins.getD
          (hash key % hm.bins.length) []) ++ post)).map Prod.fst := by
        rw [keysOf, show entries hm = hm.bins.flatten from rfl, h1]
      simp only [List.map_append, setVal_map_fst]
      rw [keysOf] at hnd
      rw [show entries hm = hm.bins.flatten from rfl, h1] at hnd
      simpa using hnd
    · intro i m hmem
      simp only at hmem
      by_cases hi : i = hash key % hm.bins.length
      · subst hi
        rw [getD_set_self _ _ _ _ hidxlt] at hmem
        obtain ⟨m', hm', hfst⟩ := mem_setVal_fst hmem
        have := hbucket _ m' hm'
        simp only [List.length_set]
        rw [← hfst]
        exact this
      · rw [getD_set_ne _ _ _ _ _ (Ne.symm hi)] at hmem
        simp only [List.length_set]
        exact hbucket i m hmem
  | none =>
    rw [insertCore_eq_new hfind value]
    obtain ⟨pre, post, h1, h2⟩ := flatten_set_decomp hm.bins
      (hash key % hm.bins.length)
      ((key, value) :: hm.bins.getD (hash key % hm.bins.length) []) hidxlt
    have hperm : List.Perm
        ((hm.bins.set (hash key % hm.bins.length)
          ((key, value) :: hm.bins.getD
            (hash key % hm.bins.length) [])).flatten)
        ((key, value) :: hm.bins.flatten) := by
      rw [h2, h1]
      exact List.perm_middle
    refine ⟨by simpa using h0, ?_, ?_, ?_⟩
    · show hm.entryCount + 1 = _
      rw [show entries ⟨hm.bins.set (hash key % hm.bins.length)
          ((key, value) :: hm.bins.getD (hash key % hm.bins.length) []),
          hm.entryCount + 1⟩ = (hm.bins.set (hash key % hm.bins.length)
          ((key, value) :: hm.bins.getD
            (hash key % hm.bins.length) [])).flatten from rfl,
        hperm.length_eq]
      rw [hcount]
      rfl
    · show ((entries ⟨hm.bins.set (hash key % hm.bins.length)
        ((key, value) :: hm.bins.getD (hash key % hm.bins.length) []),
        hm.entryCount + 1⟩).map Prod.fst).Nodup
      have hpk : List.Perm ((entries ⟨hm.bins.set
          (hash key % hm.bins.length)
          ((key, value) :: hm.bins.getD (hash key % hm.bins.length) []),
          hm.entryCount + 1⟩).map Prod.fst)
          (key :: keysOf hm) := hperm.map Prod.fst
      rw [hpk.nodup_iff, List.nodup_cons]
      refine ⟨?_, hnd⟩
      intro hkmem
      rw [keysOf, List.mem_map] at hkmem
      obtain ⟨x, hx, hfst⟩ := hkmem
      have : (key, x.2) ∈ entries hm := by
        rwa [show (key, x.2) = x from by cases x; simp at hfst; simp [hfst]]
      exact not_mem_entries_of_findNode_none hInv hfind x.2 this
    · intro i m hmem
      simp only at hmem
      by_cases hi : i = hash key % hm.bins.length
      · subst hi
        rw [getD_set_self _ _ _ _ hidxlt] at hmem
        simp only [List.length_set]
        rcases List.mem_cons.mp hmem with rfl | hmem
        · rfl
        · exact hbucket _ m hmem
      · rw [getD_set_ne _ _ _ _ _ (Ne.symm hi)] at hmem
        simp only [List.length_set]
        exact hbucket i m hmem

end HM

namespace HM

variable {K V : Type}

theorem Inv_erase [DecidableEq K] (hash : K → Nat) {hm : HashMap K V}
    (h : Inv hash hm) (key : K) : Inv hash (erase hash hm key) := by
  obtain ⟨h0, hcount, hnd, hbucket⟩ := h
  have hidxlt : hash key % hm.bins.length < hm.bins.length :=
    Nat.mod_lt _ h0
  cases hfind : findNode key
      (hm.bins.getD (hash key % hm.bins.length) []) with
  | none => rw [erase_eq_none hfind]; exact ⟨h0, hcount, hnd, hbucket⟩
  | some n =>
    rw [erase_eq_found hfind]
    obtain ⟨pre, post, h1, h2⟩ := flatten_set_decomp hm.bins
      (hash key % hm.bins.length)
      (eraseBin key (hm.bins.getD (hash key % hm.bins.length) [])) hidxlt
    have hsub : List.Sublist
        ((hm.bins.set (hash key % hm.bins.length)
          (eraseBin key
            (hm.bins.getD (hash key % hm.bins.length) []))).flatten)
        hm.bins.flatten := by
      rw [h1, h2]
      exact (List.Sublist.refl pre).append
        ((eraseBin_sublist key _).append (List.Sublist.refl post))
    refine ⟨by simpa using h0, ?_, ?_, ?_⟩
    · show hm.entryCount - 1 = _
      rw [show entries ⟨hm.bins.set (hash key % hm.bins.length)
          (eraseBin key (hm.bins.getD (hash key % hm.bins.length) [])),
          hm.entryCount - 1⟩ = (hm.bins.set (hash key % hm.bins.length)
          (eraseBin key
            (hm.bins.getD (hash key % hm.bins.length) []))).flatten from rfl,
        h2]
      rw [hcount, show entries hm = hm.bins.flatten from rfl, h1]
      have := @length_eraseBin K V _ key
        (hm.bins.getD (hash key % hm.bins.length) [])
        (by rw [hfind]; rfl)
      simp only [List.length_append]
      omega
    · show ((entries ⟨hm.bins.set (hash key % hm.bins.length)
        (eraseBin key (hm.bins.getD (hash key % hm.bins.length) [])),
        hm.entryCount - 1⟩).map Prod.fst).Nodup
      rw [keysOf] at hnd
      exact hnd.sublist (hsub.map Prod.fst)
    · intro i m hmem
      simp only at hmem
      by_cases hi : i = hash key % hm.bins.length
      · subst hi
        rw [getD_set_self _ _ _ _ hidxlt] at hmem
        simp only [List.length_set]
        exact hbucket _ m ((eraseBin_sublist key _).subset hmem)
      · rw [getD_set_ne _ _ _ _ _ (Ne.symm hi)] at hmem
        simp only [List.length_set]
        exact hbucket i m hmem

theorem Inv_insert [DecidableEq K] (hash : K → Nat) {hm : HashMap K V}
    (h : Inv hash hm) (key : K) (value : V) :
    Inv hash (insert hash hm key value) := by
  rw [insert]
  split
  · exact Inv_insertCore hash (Inv_grow hash h) key value
  · exact Inv_insertCore hash h key value

theorem mem_entries_insertCore_self [DecidableEq K] {hash : K → Nat}
    {hm : HashMap K V} (h : Inv hash hm) (key : K) (value : V) :
    (key, value) ∈ entries (insertCore hash hm key value) := by
  obtain ⟨h0, hcount, hnd, hbucket⟩ := h
  have hidxlt : hash key % hm.bins.length < hm.bins.length :=
    Nat.mod_lt _ h0
  cases hfind : findNode key
      (hm.bins.getD (hash key % hm.bins.length) []) with
  | some n =>
    rw [insertCore_eq_found hfind value]
    apply mem_entries_iff.mpr
    refine ⟨hash key % hm.bins.length, ?_⟩
    show (key, value) ∈ (hm.bins.set (hash key % hm.bins.length)
      (setVal key value
        (hm.bins.getD (hash key % hm.bins.length) []))).getD _ []
    rw [getD_set_self _ _ _ _ hidxlt]
    exact mem_setVal_self (by rw [hfind]; rfl) value
  | none =>
    rw [insertCore_eq_new hfind value]
    apply mem_entries_iff.mpr
    refine ⟨hash key % hm.bins.length, ?_⟩
    show (key, value) ∈ (hm.bins.set (hash key % hm.bins.length)
      ((key, value) ::
        hm.bins.getD (hash key % hm.bins.length) [])).getD _ []
    rw [getD_set_self _ _ _ _ hidxlt]
    exact List.mem_cons_self _ _

theorem mem_entries_insertCore_of_ne [DecidableEq K] {hash : K → Nat}
    {hm : HashMap K V} (h : Inv hash hm) {k key : K} {v : V}
    (hne : k ≠ key) (hmem : (k, v) ∈ entries hm) (value : V) :
    (k, v) ∈ entries (insertCore hash hm key value) := by
  obtain ⟨h0, hcount, hnd, hbucket⟩ := h
  have hidxlt : hash key % hm.bins.length < hm.bins.length :=
    Nat.mod_lt _ h0
  obtain ⟨i, hi⟩ := mem_entries_iff.mp hmem
  cases hfind : findNode key
      (hm.bins.getD (hash key % hm.bins.length) []) with
  | some n =>
    rw [insertCore_eq_found hfind value]
    apply mem_entries_iff.mpr
    by_cases hieq : i = hash key % hm.bins.length
    · subst hieq
      refine ⟨hash key % hm.bins.length, ?_⟩
      show (k, v) ∈ (hm.bins.set (hash key % hm.bins.length)
        (setVal key value
          (hm.bins.getD (hash key % hm.bins.length) []))).getD
          (hash key % hm.bins.length) []
      rw [getD_set_self _ _ _ _ hidxlt]
      exact (mem_setVal_of_ne hne).mpr hi
    · refine ⟨i, ?_⟩
      show (k, v) ∈ (hm.bins.set (hash key % hm.bins.length)
        (setVal key value
          (hm.bins.getD (hash key % hm.bins.length) []))).getD i []
      rw [getD_set_ne _ _ _ _ _ (Ne.symm hieq)]
      exact hi
  | none =>
    rw [insertCore_eq_new hfind value]
    apply mem_entries_iff.mpr
    by_cases hieq : i = hash key % hm.bins.length
    · subst hieq
      refine ⟨hash key % hm.bins.length, ?_⟩
      show (k, v) ∈ (hm.bins.set (hash key % hm.bins.length)
        ((key, value) ::
          hm.bins.getD (hash key % hm.bins.length) [])).getD
          (hash key % hm.bins.length) []
      rw [getD_set_self _ _ _ _ hidxlt]
      exact List.mem_cons_of_mem _ hi
    · refine ⟨i, ?_⟩
      show (k, v) ∈ (hm.bins.set (hash key % hm.bins.length)
        ((key, value) ::
          hm.bins.getD (hash key % hm.bins.length) [])).getD i []
      rw [getD_set_ne _ _ _ _ _ (Ne.symm hieq)]
      exact hi

theorem mem_entries_insert_of_ne [DecidableEq K] {hash : K → Nat}
    {hm : HashMap K V} (h : Inv hash hm) {k key : K} {v : V}
    (hne : k ≠ key) (hmem : (k, v) ∈ entries hm) (value : V) :
    (k, v) ∈ entries (insert hash hm key value) := by
  rw [insert]
  split
  · next hcond =>
    refine mem_entries_insertCore_of_ne (Inv_grow hash h) hne ?_ value
    exact ((grow_spec hash hm h.1).2.1.symm.mem_iff).mp hmem
  · exact mem_entries_insertCore_of_ne h hne hmem value

theorem mem_entries_erase_of_ne [DecidableEq K] {hash : K → Nat}
    {hm : HashMap K V} (h : Inv hash hm) {k key : K} {v : V}
    (hne : k ≠ key) (hmem : (k, v) ∈ entries hm) :
    (k, v) ∈ entries (erase hash hm key) := by
  obtain ⟨h0, hcount, hnd, hbucket⟩ := h
  have hidxlt : hash key % hm.bins.length < hm.bins.length :=
    Nat.mod_lt _ h0
  obtain ⟨i, hi⟩ := mem_entries_iff.mp hmem
  cases hfind : findNode key
      (hm.bins.getD (hash key % hm.bins.length) []) with
  | none => rw [erase_eq_none hfind]; exact hmem
  | some n =>
    rw [erase_eq_found hfind]
    apply mem_entries_iff.mpr
    by_cases hieq : i = hash key % hm.bins.length
    · subst hieq
      refine ⟨hash key % hm.bins.length, ?_⟩
      show (k, v) ∈ (hm.bins.set (hash key % hm.bins.length)
        (eraseBin key
          (hm.bins.getD (hash key % hm.bins.length) []))).getD
          (hash key % hm.bins.length) []
      rw [getD_set_self _ _ _ _ hidxlt]
      exact mem_eraseBin_of_ne hne hi
    · refine ⟨i, ?_⟩
      show (k, v) ∈ (hm.bins.set (hash key % hm.bins.length)
        (eraseBin key
          (hm.bins.getD (hash key % hm.bins.length) []))).getD i []
      rw [getD_set_ne _ _ _ _ _ (Ne.symm hieq)]
      exact hi

theorem atKey_ok_iff [DecidableEq K] {hash : K → Nat} {hm : HashMap K V}
    (h : Inv hash hm) (key : K) (v : V) :
    atKey hash hm key = Except.ok v ↔ (key, v) ∈ entries hm := by
  obtain ⟨h0, hcount, hnd, hbucket⟩ := h
  constructor
  · intro ha
    cases hfind : findNode key
        (hm.bins.getD (hash key % hm.bins.length) []) with
    | none =>
      rw [atKey, hfind] at ha
      exact absurd ha (by simp)
    | some n =>
      rw [atKey, hfind] at ha
      obtain ⟨hk, hmem⟩ := findNode_some hfind
      have hv : n.2 = v := by
        have : Except.ok (ε := ADTError) n.2 = Except.ok v := ha
        simpa using this
      have hn : n = (key, v) := by
        cases n
        simp only at hk hv
        rw [hk, hv]
      rw [hn] at hmem
      exact mem_entries_iff.mpr ⟨_, hmem⟩
  · intro hmem
    obtain ⟨i, hi⟩ := mem_entries_iff.mp hmem
    have hieq : i = hash key % hm.bins.length := by
      have := hbucket i _ hi
      simpa using this.symm
    subst hieq
    cases hfind : findNode key
        (hm.bins.getD (hash key % hm.bins.length) []) with
    | none =>
      exfalso
      have : (findNode key
          (hm.bins.getD (hash key % hm.bins.length) [])).isSome :=
        findNode_isSome_iff.mpr ⟨v, hi⟩
      rw [hfind] at this
      exact absurd this (by simp)
    | some n =>
      rw [atKey, hfind]
      obtain ⟨hk, hmemn⟩ := findNode_some hfind
      have hn_entries : n ∈ entries hm := mem_entries_iff.mpr ⟨_, hmemn⟩
      rw [keysOf] at hnd
      have : n = (key, v) :=
        List.inj_on_of_nodup_map hnd hn_entries hmem (by rw [hk])
      rw [this]

end HM

namespace HM

variable {K V : Type}

/-- The operation does not mention key `k` (specification helper for the
"not erased nor re-inserted afterward" side condition). -/
def untouches [DecidableEq K] (op : HOp K V) (k : K) : Bool :=
  match op with
  | HOp.ins k' _ => k' != k
  | HOp.del k' => k' != k

theorem Inv_applyOp [DecidableEq K] (hash : K → Nat) {hm : HashMap K V}
    (h : Inv hash hm) (op : HOp K V) : Inv hash (applyOp hash hm op) := by
  cases op with
  | ins k v => exact Inv_insert hash h k v
  | del k => exact Inv_erase hash h k

theorem Inv_applyOpsFrom [DecidableEq K] (hash : K → Nat)
    (ops : List (HOp K V)) :
    ∀ {hm : HashMap K V}, Inv hash hm → Inv hash (applyOpsFrom hash hm ops) := by
  induction ops with
  | nil => exact fun h => h
  | cons op ops ih =>
    intro hm h
    exact ih (Inv_applyOp hash h op)

theorem Inv_applyOps [DecidableEq K] (hash : K → Nat)
    (ops : List (HOp K V)) : Inv hash (applyOps hash ops) :=
  Inv_applyOpsFrom hash ops (Inv_empty hash)

theorem mem_entries_applyOp_untouched [DecidableEq K] {hash : K → Nat}
    {hm : HashMap K V} (h : Inv hash hm) {k : K} {v : V}
    (hmem : (k, v) ∈ entries hm) {op : HOp K V}
    (hop : untouches op k = true) :
    (k, v) ∈ entries (applyOp hash hm op) := by
  cases op with
  | ins k' v' =>
    have hne : k ≠ k' := by
      simp [untouches] at hop
      exact fun hc => hop hc.symm
    exact mem_entries_insert_of_ne h hne hmem v'
  | del k' =>
    have hne : k ≠ k' := by
      simp [untouches] at hop
      exact fun hc => hop hc.symm
    exact mem_entries_erase_of_ne h hne hmem

theorem mem_entries_applyOpsFrom_untouched [DecidableEq K]
    {hash : K → Nat} {k : K} {v : V} (ops : List (HOp K V)) :
    ∀ {hm : HashMap K V}, Inv hash hm → (k, v) ∈ entries hm →
      (∀ op ∈ ops, untouches op k = true) →
      (k, v) ∈ entries (applyOpsFrom hash hm ops) := by
  induction ops with
  | nil => exact fun _ hmem _ => hmem
  | cons op ops ih =>
    intro hm h hmem hops
    exact ih (Inv_applyOp hash h op)
      (mem_entries_applyOp_untouched h hmem
        (hops op (List.mem_cons_self op ops)))
      (fun op' hop' => hops op' (List.mem_cons_of_mem op hop'))

theorem size_eq_dedup_keys [DecidableEq K] {hash : K → Nat}
    {hm : HashMap K V} (h : Inv hash hm) :
    size hm = (keysOf hm).dedup.length := by
  obtain ⟨h0, hcount, hnd, hbucket⟩ := h
  rw [size, hcount, hnd.dedup, keysOf, List.length_map]

end HM

/-- C7 counterexample to the claim as stated: with no intervening `erase`,
a second `insert` of the same key with a different value makes `at(k)`
return the newer value, not the one the claim fixes — after `insert(1, 10)`
and then `insert(1, 20)` (key 1 never erased), `at(1)` is `20`, not `10`. -/
theorem claim_C7_hashmap_counterexample :
    HM.atKey id (HM.insert id (HM.insert id (HM.emptyMap :
        HM.HashMap Nat Nat) 1 10) 1 20) 1 = Except.ok 20 ∧
    Except.ok (20 : Nat) ≠ (Except.ok 10 : Except ADTError Nat) :=
  ⟨rfl, by simp⟩

/-- C7 (amended): for every insert/erase sequence `size()` equals the
number of distinct keys present; `at(k)` after `insert(k, v)` returns `v`
as long as `k` is neither erased nor re-inserted afterward; and when the
load factor exceeds 80% an insert doubles the bin count, the rehash moving
every (key, value) pair without loss or duplication. -/
theorem claim_C7_hashmap_amended (K V : Type) [DecidableEq K]
    (hash : K → Nat) :
    (∀ ops : List (HM.HOp K V),
      HM.size (HM.applyOps hash ops) =
        (HM.keysOf (HM.applyOps hash ops)).dedup.length) ∧
    (∀ (ops : List (HM.HOp K V)) (k : K) (v : V)
        (later : List (HM.HOp K V)),
      (∀ op ∈ later, HM.untouches op k = true) →
      HM.atKey hash (HM.applyOpsFrom hash
          (HM.insert hash (HM.applyOps hash ops) k v) later) k =
        Except.ok v) ∧
    (∀ hm : HM.HashMap K V, 0 < hm.bins.length →
      (HM.grow hash hm).bins.length = 2 * hm.bins.length ∧
      List.Perm (HM.entries (HM.grow hash hm)) (HM.entries hm)) ∧
    (∀ (hm : HM.HashMap K V) (k : K) (v : V), 0 < hm.bins.length →
      100 * hm.entryCount > 80 * hm.bins.length →
      (HM.insert hash hm k v).bins.length = 2 * hm.bins.length) := by
  refine ⟨?_, ?_, ?_, ?_⟩
  · intro ops
    exact HM.size_eq_dedup_keys (HM.Inv_applyOps hash ops)
  · intro ops k v later hlater
    have hInv0 : HM.Inv hash (HM.applyOps hash ops) :=
      HM.Inv_applyOps hash ops
    have hInv1 : HM.Inv hash (HM.insert hash (HM.applyOps hash ops) k v) :=
      HM.Inv_insert hash hInv0 k v
    have hmem1 : (k, v) ∈ HM.entries
        (HM.insert hash (HM.applyOps hash ops) k v) := by
      rw [HM.insert]
      split
      · exact HM.mem_entries_insertCore_self
          (HM.Inv_grow hash hInv0) k v
      · exact HM.mem_entries_insertCore_self hInv0 k v
    have hmem2 := HM.mem_entries_applyOpsFrom_untouched later hInv1 hmem1
      hlater
    exact (HM.atKey_ok_iff
      (HM.Inv_applyOpsFrom hash later hInv1) k v).mpr hmem2
  · intro hm h0
    obtain ⟨l1, p1, _⟩ := HM.grow_spec hash hm h0
    exact ⟨l1, p1⟩
  · intro hm k v h0 hload
    rw [HM.insert, if_pos (by
      simpa [HM.MAX_OCCUPATION] using hload)]
    have hgl : (HM.grow hash hm).bins.length = 2 * hm.bins.length :=
      (HM.grow_spec hash hm h0).1
    rw [HM.insertCore]
    cases hfind : HM.findNode k ((HM.grow hash hm).bins.getD
        (hash k % (HM.grow hash hm).bins.length) []) with
    | some n => simpa using hgl
    | none => simpa using hgl

/-- Witness for C7 (amended) at concrete inputs: the `at` conjunct after
`insert(1, 10)` with a later untouched-key operation `erase 2`, and the
growth conjuncts on a concrete map. -/
theorem claim_C7_hashmap_amended_witness :
    ((∀ op ∈ [HM.HOp.del (2 : Nat)], HM.untouches (V := Nat) op 1 = true) ∧
      HM.atKey id (HM.applyOpsFrom id
          (HM.insert id (HM.applyOps id ([] : List (HM.HOp Nat Nat))) 1 10)
          [HM.HOp.del 2]) 1 = Except.ok 10) ∧
    (0 < (HM.emptyMap : HM.HashMap Nat Nat).bins.length ∧
      (HM.grow id (HM.emptyMap : HM.HashMap Nat Nat)).bins.length =
          2 * (HM.emptyMap : HM.HashMap Nat Nat).bins.length ∧
        List.Perm (HM.entries (HM.grow id (HM.emptyMap : HM.HashMap Nat Nat)))
          (HM.entries (HM.emptyMap : HM.HashMap Nat Nat))) :=
  ⟨⟨by decide, (claim_C7_hashmap_amended Nat Nat id).2.1 [] 1 10
      [HM.HOp.del 2] (by decide)⟩,
    ⟨by decide, (claim_C7_hashmap_amended Nat Nat id).2.2.1
      HM.emptyMap (by decide)⟩⟩

/-!
## §3 / §4.1 — the reference-counting semantics of `BinTree.h` (claim C1)

Namespace `RC`: here object identity matters, so nodes live in an explicit
heap.  An address is an index into a list of cells; `none` is a freed (or
never-allocated) cell; a `BinTree` handle is an optional root address
(`none` = empty tree).  Allocation appends at the end of the heap, so a
node's children always live at smaller addresses than the node.
-/

namespace RC

/-- One heap node of `BinTree<T>::Node`: element, child pointers, and the
reference count (`int _refs`, non-negative by the `assert`s). -/
structure NodeR (α : Type) where
  elem : α
  left : Option Nat
  right : Option Nat
  refs : Nat
deriving DecidableEq, Repr

/-- The node heap. -/
abbrev Heap (α : Type) : Type := List (Option (NodeR α))

variable {α : Type}

/-- Read the cell at address `a` (freed and out-of-range cells read as
`none`). -/
def hget (h : Heap α) (a : Nat) : Option (NodeR α) := h.getD a none

/-- Overwrite the cell at address `a`. -/
def hset (h : Heap α) (a : Nat) (v : Option (NodeR α)) : Heap α := h.set a v

/-- `Node::addRef()` as performed when a handle aliases the node at `a`
(protected `BinTree(Node*)` constructor and `copy`). -/
def addRef (h : Heap α) (a : Nat) : Heap α :=
  match hget h a with
  | none => h
  | some n => hset h a (some {n with refs := n.refs + 1})

/-- `addRef` through an optional pointer (null pointers are not counted). -/
def addRefOpt (h : Heap α) : Option Nat → Heap α
  | none => h
  | some a => addRef h a

/-- `new Node(left, elem, right)`: the node constructor `addRef`s each
non-null child and starts with `_refs = 0`; the cell is allocated at the
end of the heap. -/
def newNode (h : Heap α) (l : Option Nat) (e : α) (r : Option Nat) :
    Heap α × Nat :=
  let h1 := addRefOpt h l
  let h2 := addRefOpt h1 r
  (h2 ++ [some ⟨e, l, r, 0⟩], h2.length)

/-- The composite constructor `BinTree(iz, elem, dr)`: `new Node(...)`
followed by `_root->addRef()`. -/
def consTree (h : Heap α) (l : Option Nat) (e : α) (r : Option Nat) :
    Heap α × Nat :=
  let p := newNode h l e r
  (addRef p.1 p.2, p.2)

/-- `BinTree::free(Node*)`: `rmRef()` the root, and if its count reached
zero, free both children recursively and delete the cell.  `fuel` bounds
the recursion depth; any fuel of at least the subtree size is enough for a
reachable node (children live at smaller addresses), so the bound never
fires in valid states. -/
def freeN : Nat → Option Nat → Heap α → Heap α
  | _, none, h => h
  | 0, some _, h => h
  | fuel + 1, some a, h =>
    match hget h a with
    | none => h
    | some n =>
      if n.refs - 1 = 0 then
        hset
          (freeN fuel n.right
            (freeN fuel n.left (hset h a (some {n with refs := n.refs - 1}))))
          a none
      else hset h a (some {n with refs := n.refs - 1})

/-- Destroying a handle (`~BinTree`, or the `free()` half of assignment):
`free(_root)`. -/
def destroy (h : Heap α) (p : Option Nat) : Heap α := freeN h.length p h

/-- `left()` on a handle: fails (`EmptyTreeException`) on an empty handle,
else aliases `_root->_left` (incrementing its count) and returns the new
handle. -/
def leftOp (h : Heap α) (p : Option Nat) : Option (Heap α × Option Nat) :=
  match p with
  | none => none
  | some a =>
    match hget h a with
    | none => none
    | some n => some (addRefOpt h n.left, n.left)

/-- `right()` on a handle. -/
def rightOp (h : Heap α) (p : Option Nat) : Option (Heap α × Option Nat) :=
  match p with
  | none => none
  | some a =>
    match hget h a with
    | none => none
    | some n => some (addRefOpt h n.right, n.right)

/-- The value `elem()` returns (`none` = exception or dangling). -/
def elemOp (h : Heap α) (p : Option Nat) : Option α :=
  match p with
  | none => none
  | some a => (hget h a).map NodeR.elem

/-- Building a fresh tree with the public constructors, bottom-up; the
temporary child handles die at the end of the constructor's full
expression, as in C++. -/
def build : BinTree α → Heap α → Heap α × Option Nat
  | BinTree.nil, h => (h, none)
  | BinTree.node l e r, h =>
    let bl := build l h
    let br := build r bl.1
    let p := consTree br.1 bl.2 e br.2
    let h4 := destroy p.1 bl.2
    let h5 := destroy h4 br.2
    (h5, some p.2)

/-- Decode the tree value reachable from a pointer. -/
def readT : Nat → Heap α → Option Nat → Option (BinTree α)
  | _, _, none => some BinTree.nil
  | 0, _, some _ => none
  | fuel + 1, h, some a =>
    match hget h a with
    | none => none
    | some n =>
      match readT fuel h n.left, readT fuel h n.right with
      | some l, some r => some (BinTree.node l n.elem r)
      | _, _ => none

/-- The root address of the image of `t` in a region based at `base`
(`build` lays a tree out in the addresses `[base, base + t.size)`, the
root last). -/
def addrOf (base : Nat) : BinTree α → Option Nat
  | BinTree.nil => none
  | BinTree.node l _ r => some (base + l.size + r.size)

/-- `encodes h base t`: the cells `[base, base + t.size)` hold exactly the
image of `t` as `build` lays it out, every node with reference count 1
(one reference each: the parent's pointer, or the root handle). -/
def encodes (h : Heap α) (base : Nat) : BinTree α → Prop
  | BinTree.nil => True
  | BinTree.node l e r =>
    hget h (base + l.size + r.size) =
      some ⟨e, addrOf base l, addrOf (base + l.size) r, 1⟩ ∧
    encodes h base l ∧ encodes h (base + l.size) r

/-- The heap and surviving handle after the claim's scenario: build
`t1 = (l, e, r)` on a fresh heap, take `BinTree t2 = t1.left()`, then
destroy `t1`. -/
def scenarioHeap (l : BinTree α) (e : α) (r : BinTree α) :
    Heap α × Option Nat :=
  let b := build (BinTree.node l e r) ([] : Heap α)
  match leftOp b.1 b.2 with
  | none => ([], none)
  | some s => (destroy s.1 b.2, s.2)

end RC

section RCTests

example : RC.scenarioHeap (BinTree.node BinTree.nil 2 BinTree.nil) 1
    (BinTree.node BinTree.nil 3 BinTree.nil) =
    ([some ⟨2, none, none, 1⟩, none, none], some 0) := by decide

example : RC.readT 1 ([some ⟨2, none, none, 1⟩, none, none] : RC.Heap Nat)
    (some 0) = some (BinTree.node BinTree.nil 2 BinTree.nil) := by decide

example : RC.build (BinTree.node (BinTree.node BinTree.nil 2 BinTree.nil) 1
    (BinTree.node BinTree.nil 3 BinTree.nil)) ([] : RC.Heap Nat) =
    ([some ⟨2, none, none, 1⟩, some ⟨3, none, none, 1⟩,
      some ⟨1, some 0, some 1, 1⟩], some 2) := by decide

end RCTests

namespace RC

variable {α : Type}

theorem length_hset (h : Heap α) (a : Nat) (v : Option (NodeR α)) :
    (hset h a v).length = h.length := List.length_set _ _ _

theorem hget_some_lt {h : Heap α} {a : Nat} {n : NodeR α}
    (hn : hget h a = some n) : a < h.length := by
  by_contra hc
  rw [hget, HM.getD_eq_of_le h a none (by omega)] at hn
  exact Option.noConfusion hn

theorem hget_hset_self {h : Heap α} {a : Nat} (v : Option (NodeR α))
    (ha : a < h.length) : hget (hset h a v) a = v :=
  HM.getD_set_self h a v none ha

theorem hget_hset_ne (h : Heap α) {a b : Nat} (v : Option (NodeR α))
    (hab : a ≠ b) : hget (hset h a v) b = hget h b :=
  HM.getD_set_ne h a b v none hab

theorem length_addRef (h : Heap α) (a : Nat) :
    (addRef h a).length = h.length := by
  cases hh : hget h a with
  | none => rw [addRef, hh]
  | some n => rw [addRef, hh]; exact length_hset h a _

theorem length_addRefOpt (h : Heap α) (p : Option Nat) :
    (addRefOpt h p).length = h.length := by
  cases p with
  | none => rfl
  | some a => exact length_addRef h a

theorem hget_addRef_ne (h : Heap α) {a b : Nat} (hab : a ≠ b) :
    hget (addRef h a) b = hget h b := by
  cases hh : hget h a with
  | none => rw [addRef, hh]
  | some n => rw [addRef, hh]; exact hget_hset_ne h _ hab

theorem hget_addRef_self {h : Heap α} {a : Nat} {n : NodeR α}
    (hn : hget h a = some n) :
    hget (addRef h a) a = some {n with refs := n.refs + 1} := by
  rw [addRef, hn]
  exact hget_hset_self _ (hget_some_lt hn)

theorem hget_append_lt {h : Heap α} (x : Option (NodeR α)) {a : Nat}
    (ha : a < h.length) : hget (h ++ [x]) a = hget h a := by
  induction h generalizing a with
  | nil => simp at ha
  | cons c h ih =>
    cases a with
    | zero => rfl
    | succ a => exact ih (by simpa using ha)

theorem hget_append_self (h : Heap α) (x : Option (NodeR α)) :
    hget (h ++ [x]) h.length = x := by
  induction h with
  | nil => rfl
  | cons c h ih => exact ih

theorem freeN_none (fuel : Nat) (h : Heap α) : freeN fuel none h = h := by
  cases fuel <;> rfl

theorem freeN_decrement {h : Heap α} {a : Nat} {n : NodeR α} {fuel : Nat}
    (hn : hget h a = some n) (hrefs : 2 ≤ n.refs) (hfuel : 1 ≤ fuel) :
    freeN fuel (some a) h = hset h a (some {n with refs := n.refs - 1}) := by
  match fuel, hfuel with
  | fuel + 1, _ =>
    simp only [freeN, hn]
    rw [if_neg (by omega)]

theorem addrOf_lt {base : Nat} {t : BinTree α} {a : Nat}
    (ha : addrOf base t = some a) : base ≤ a ∧ a < base + t.size := by
  cases t with
  | nil => exact Option.noConfusion ha
  | node l e r =>
    rw [addrOf] at ha
    cases ha
    simp only [BinTree.size]
    omega

theorem encodes_congr {t : BinTree α} :
    ∀ {h h' : Heap α} {base : Nat},
      (∀ i, base ≤ i → i < base + t.size → hget h' i = hget h i) →
      encodes h base t → encodes h' base t := by
  induction t with
  | nil => intro h h' base _ _; trivial
  | node l e r ihl ihr =>
    intro h h' base hsame he
    obtain ⟨hroot, hel, her⟩ := he
    have hsz : (BinTree.node l e r).size = l.size + r.size + 1 := rfl
    refine ⟨?_, ?_, ?_⟩
    · rw [hsame _ (by omega) (by rw [hsz]; omega)]
      exact hroot
    · exact ihl (fun i h1 h2 => hsame i h1 (by rw [hsz]; omega)) hel
    · exact ihr (fun i h1 h2 => hsame i (by omega) (by rw [hsz]; omega)) her

theorem addRefOpt_addrOf_outside (s : BinTree α) (g : Heap α) (b : Nat) :
    ∀ i, (i < b ∨ b + s.size ≤ i) →
      hget (addRefOpt g (addrOf b s)) i = hget g i := by
  intro i hi
  cases s with
  | nil => rfl
  | node sl se sr =>
    apply hget_addRef_ne
    have := @addrOf_lt α b (BinTree.node sl se sr) _ rfl
    omega

theorem addRefOpt_congr_region (s : BinTree α) {g g' : Heap α} {b : Nat}
    (hsame : ∀ i, b ≤ i → i < b + s.size → hget g' i = hget g i) :
    ∀ i, b ≤ i → i < b + s.size →
      hget (addRefOpt g' (addrOf b s)) i = hget (addRefOpt g (addrOf b s)) i := by
  intro i h1 h2
  cases s with
  | nil => exact hsame i h1 h2
  | node sl se sr =>
    rw [show addrOf b (BinTree.node sl se sr) =
      some (b + sl.size + sr.size) from rfl]
    by_cases hia : i = b + sl.size + sr.size
    · subst hia
      cases hh : hget g (b + sl.size + sr.size) with
      | none =>
        have hh' : hget g' (b + sl.size + sr.size) = none := by
          rw [hsame _ h1 h2]; exact hh
        rw [show addRefOpt g' (some (b + sl.size + sr.size)) =
          addRef g' (b + sl.size + sr.size) from rfl, addRef, hh']
        rw [show addRefOpt g (some (b + sl.size + sr.size)) =
          addRef g (b + sl.size + sr.size) from rfl, addRef, hh]
        exact hsame _ h1 h2
      | some n =>
        have hh' : hget g' (b + sl.size + sr.size) = some n := by
          rw [hsame _ h1 h2]; exact hh
        rw [show addRefOpt g' (some (b + sl.size + sr.size)) =
          addRef g' (b + sl.size + sr.size) from rfl, hget_addRef_self hh']
        rw [show addRefOpt g (some (b + sl.size + sr.size)) =
          addRef g (b + sl.size + sr.size) from rfl, hget_addRef_self hh]
    · rw [show addRefOpt g' (some (b + sl.size + sr.size)) =
        addRef g' (b + sl.size + sr.size) from rfl,
        hget_addRef_ne g' (fun hc => hia hc.symm)]
      rw [show addRefOpt g (some (b + sl.size + sr.size)) =
        addRef g (b + sl.size + sr.size) from rfl,
        hget_addRef_ne g (fun hc => hia hc.symm)]
      exact hsame i h1 h2

end RC

namespace RC

variable {α : Type}

/-- A handle aliased a subtree (incrementing its root count to 2); other
operations left the subtree's region untouched; releasing that alias
restores the region exactly (decrement back to 1, no reclaim). -/
theorem bump_unbump {s : BinTree α} {g gN : Heap α} {b : Nat} {fuel : Nat}
    (henc : encodes g b s)
    (hmid : ∀ i, b ≤ i → i < b + s.size →
      hget gN i = hget (addRefOpt g (addrOf b s)) i)
    (hfuel : 1 ≤ fuel) :
    (∀ i, b ≤ i → i < b + s.size →
      hget (freeN fuel (addrOf b s) gN) i = hget g i) ∧
    (∀ i, (i < b ∨ b + s.size ≤ i) →
      hget (freeN fuel (addrOf b s) gN) i = hget gN i) ∧
    (freeN fuel (addrOf b s) gN).length = gN.length := by
  cases s with
  | nil =>
    rw [show addrOf b (BinTree.nil : BinTree α) = none from rfl, freeN_none]
    exact ⟨fun i h1 h2 => by simp [BinTree.size] at h2; omega, fun _ _ => rfl,
      rfl⟩
  | node sl se sr =>
    obtain ⟨hroot, _, _⟩ := henc
    have hra : addrOf b (BinTree.node sl se sr) =
      some (b + sl.size + sr.size) := rfl
    have hbound : b ≤ b + sl.size + sr.size ∧
        b + sl.size + sr.size < b + (BinTree.node sl se sr).size := by
      simp only [BinTree.size]; omega
    have hbump : hget (addRefOpt g (addrOf b (BinTree.node sl se sr)))
        (b + sl.size + sr.size) =
        some ⟨se, addrOf b sl, addrOf (b + sl.size) sr, 2⟩ := by
      rw [hra]
      exact hget_addRef_self hroot
    have hgN : hget gN (b + sl.size + sr.size) =
        some ⟨se, addrOf b sl, addrOf (b + sl.size) sr, 2⟩ := by
      rw [hmid _ hbound.1 hbound.2]
      exact hbump
    rw [hra, freeN_decrement hgN (by simp) hfuel]
    have hlt : b + sl.size + sr.size < gN.length := hget_some_lt hgN
    refine ⟨?_, ?_, length_hset _ _ _⟩
    · intro i h1 h2
      by_cases hia : i = b + sl.size + sr.size
      · subst hia
        rw [hget_hset_self _ hlt, hroot]
        exact rfl
      · rw [hget_hset_ne gN _ (fun hc => hia hc.symm), hmid i h1 h2, hra]
        exact hget_addRef_ne g (fun hc => hia hc.symm)
    · intro i hi
      apply hget_hset_ne
      intro hc
      simp only [BinTree.size] at hi
      omega

/-- Releasing the last handle to an encoded subtree reclaims the node and
all its descendants (exactly the region is freed; nothing else is
touched). -/
theorem freeN_region {t : BinTree α} :
    ∀ (h : Heap α) (base fuel : Nat), encodes h base t → t.size ≤ fuel →
      (∀ i, base ≤ i → i < base + t.size →
        hget (freeN fuel (addrOf base t) h) i = none) ∧
      (∀ i, (i < base ∨ base + t.size ≤ i) →
        hget (freeN fuel (addrOf base t) h) i = hget h i) ∧
      (freeN fuel (addrOf base t) h).length = h.length := by
  induction t with
  | nil =>
    intro h base fuel _ _
    rw [show addrOf base (BinTree.nil : BinTree α) = none from rfl, freeN_none]
    exact ⟨fun i h1 h2 => by simp [BinTree.size] at h2; omega,
      fun _ _ => rfl, rfl⟩
  | node l e r ihl ihr =>
    intro h base fuel henc hfuel
    obtain ⟨hroot, hel, her⟩ := henc
    have hsz : (BinTree.node l e r).size = l.size + r.size + 1 := rfl
    rw [hsz] at hfuel
    match fuel, hfuel with
    | f + 1, _ =>
      have hf : l.size + r.size ≤ f := by omega
      have hra : addrOf base (BinTree.node l e r) =
        some (base + l.size + r.size) := rfl
      rw [hra]
      simp only [freeN, hroot]
      rw [if_pos trivial]
      have hlt : base + l.size + r.size < h.length := hget_some_lt hroot
      set hA := hset h (base + l.size + r.size)
        (some {(⟨e, addrOf base l, addrOf (base + l.size) r, 1⟩ : NodeR α)
          with refs := 1 - 1}) with hAdef
      have hAsame : ∀ i, i ≠ base + l.size + r.size → hget hA i = hget h i :=
        fun i hi => hget_hset_ne h _ (fun hc => hi hc.symm)
      have hencA : encodes hA base l :=
        encodes_congr (fun i h1 h2 => hAsame i (by omega)) hel
      obtain ⟨Breg, Bout, Blen⟩ := ihl hA base f hencA (by omega)
      set hB := freeN f (addrOf base l) hA with hBdef
      have hencB : encodes hB (base + l.size) r := by
        refine encodes_congr (fun i h1 h2 => ?_) her
        rw [Bout i (by omega), hAsame i (by omega)]
      obtain ⟨Creg, Cout, Clen⟩ := ihr hB (base + l.size) f hencB (by omega)
      set hC := freeN f (addrOf (base + l.size) r) hB with hCdef
      have hCltlen : base + l.size + r.size < hC.length := by
        rw [Clen, Blen, length_hset]
        exact hlt
      refine ⟨?_, ?_, ?_⟩
      · intro i h1 h2
        rw [hsz] at h2
        by_cases hia : i = base + l.size + r.size
        · subst hia
          exact hget_hset_self _ hCltlen
        · rw [hget_hset_ne hC _ (fun hc => hia hc.symm)]
          by_cases hil : i < base + l.size
          · rw [Cout i (by omega)]
            exact Breg i h1 (by omega)
          · exact Creg i (by omega) (by omega)
      · intro i hi
        rw [hsz] at hi
        rw [hget_hset_ne hC _ (by omega)]
        rw [Cout i (by omega), Bout i (by omega), hAsame i (by omega)]
      · rw [length_hset, Clen, Blen, length_hset]

/-- Decoding an encoded region gives back the tree that was laid out. -/
theorem readT_encodes {t : BinTree α} :
    ∀ (h : Heap α) (base fuel : Nat), encodes h base t → t.size ≤ fuel →
      readT fuel h (addrOf base t) = some t := by
  induction t with
  | nil => intro h base fuel _ _; cases fuel <;> rfl
  | node l e r ihl ihr =>
    intro h base fuel henc hfuel
    obtain ⟨hroot, hel, her⟩ := henc
    have hsz : (BinTree.node l e r).size = l.size + r.size + 1 := rfl
    rw [hsz] at hfuel
    match fuel, hfuel with
    | f + 1, _ =>
      rw [show addrOf base (BinTree.node l e r) =
        some (base + l.size + r.size) from rfl]
      simp only [readT, hroot]
      rw [ihl h base f hel (by omega), ihr h (base + l.size) f her (by omega)]

end RC


namespace RC

variable {α : Type}

theorem build_node_def (l : BinTree α) (e : α) (r : BinTree α) (h : Heap α) :
    build (BinTree.node l e r) h =
      (destroy
        (destroy
          (consTree (build r (build l h).1).1 (build l h).2 e
            (build r (build l h).1).2).1
          (build l h).2)
        (build r (build l h).1).2,
       some (consTree (build r (build l h).1).1 (build l h).2 e
         (build r (build l h).1).2).2) := rfl

theorem consTree_def (h : Heap α) (l : Option Nat) (e : α) (r : Option Nat) :
    consTree h l e r =
      (addRef (addRefOpt (addRefOpt h l) r ++ [some ⟨e, l, r, 0⟩])
        (addRefOpt (addRefOpt h l) r).length,
       (addRefOpt (addRefOpt h l) r).length) := rfl

/-- `build` appends the image of the tree to the heap: the new region
encodes the tree with every reference count 1, the returned handle is its
root, and no pre-existing cell is changed. -/
theorem build_spec (t : BinTree α) :
    ∀ h : Heap α,
      (build t h).1.length = h.length + t.size ∧
      (∀ i, i < h.length → hget (build t h).1 i = hget h i) ∧
      (build t h).2 = addrOf h.length t ∧
      encodes (build t h).1 h.length t := by
  induction t with
  | nil =>
    intro h
    exact ⟨by simp [build, BinTree.size], fun i _ => rfl, rfl, trivial⟩
  | node l e r ihl ihr =>
    intro h
    obtain ⟨Llen, Lpres, Laddr, Lenc⟩ := ihl h
    obtain ⟨Rlen, Rpres, Raddr, Renc⟩ := ihr (build l h).1
    rw [build_node_def, consTree_def]
    set h1 := (build l h).1 with hh1
    set pl := (build l h).2 with hpl
    set h2 := (build r h1).1 with hh2
    set pr := (build r h1).2 with hpr
    set g1 := addRefOpt h2 pl with hg1
    set g2 := addRefOpt g1 pr with hg2
    set g3 := g2 ++ [some (⟨e, pl, pr, 0⟩ : NodeR α)] with hg3
    set g4 := addRef g3 g2.length with hg4
    have hszn : (BinTree.node l e r).size = l.size + r.size + 1 := rfl
    have F0 : h2.length = h.length + l.size + r.size := by
      rw [Rlen, Llen]
    have Raddr' : pr = addrOf (h.length + l.size) r := by
      rw [Raddr, Llen]
    have F1 : encodes h2 h.length l := by
      refine encodes_congr (fun i hi1 hi2 => ?_) Lenc
      exact Rpres i (by omega)
    have F2 : encodes h2 (h.length + l.size) r := by
      rw [show h.length + l.size = h1.length from by rw [Llen]]
      exact Renc
    have A1 : g1.length = h2.length := length_addRefOpt h2 pl
    have A2 : ∀ i, (i < h.length ∨ h.length + l.size ≤ i) →
        hget g1 i = hget h2 i := by
      intro i hi
      rw [hg1, Laddr]
      exact addRefOpt_addrOf_outside l h2 h.length i hi
    have B1 : g2.length = h2.length := by
      rw [hg2, length_addRefOpt, A1]
    have B2 : ∀ i, (i < h.length + l.size ∨ h.length + l.size + r.size ≤ i) →
        hget g2 i = hget g1 i := by
      intro i hi
      rw [hg2, Raddr']
      exact addRefOpt_addrOf_outside r g1 (h.length + l.size) i hi
    have hrootA : g2.length = h.length + l.size + r.size := by
      rw [B1, F0]
    have C1 : ∀ i, i < g2.length → hget g3 i = hget g2 i :=
      fun i hi => hget_append_lt _ hi
    have C2 : hget g3 g2.length = some ⟨e, pl, pr, 0⟩ := hget_append_self g2 _
    have C3 : g3.length = g2.length + 1 := by
      rw [hg3]; simp
    have D1 : hget g4 g2.length = some ⟨e, pl, pr, 1⟩ := by
      rw [hg4, hget_addRef_self C2]
    have D2 : ∀ i, i ≠ g2.length → hget g4 i = hget g3 i := by
      intro i hi
      rw [hg4]
      exact hget_addRef_ne g3 (fun hc => hi hc.symm)
    have D3 : g4.length = g2.length + 1 := by
      rw [hg4, length_addRef, C3]
    have hfuel4 : 1 ≤ g4.length := by omega
    have hmidL : ∀ i, h.length ≤ i → i < h.length + l.size →
        hget g4 i = hget (addRefOpt h2 (addrOf h.length l)) i := by
      intro i hi1 hi2
      rw [D2 i (by omega), C1 i (by omega), B2 i (by omega)]
      rw [hg1, Laddr]
    obtain ⟨Breg, Bout, Blen⟩ :=
      @bump_unbump α l h2 g4 h.length g4.length F1 hmidL hfuel4
    have hg5eq : freeN g4.length (addrOf h.length l) g4 = destroy g4 pl := by
      rw [Laddr]; rfl
    rw [hg5eq] at Breg Bout Blen
    set g5 := destroy g4 pl with hg5
    have hmidR : ∀ i, h.length + l.size ≤ i →
        i < h.length + l.size + r.size →
        hget g5 i = hget (addRefOpt h2 (addrOf (h.length + l.size) r)) i := by
      intro i hi1 hi2
      rw [Bout i (by omega), D2 i (by omega), C1 i (by omega)]
      have hstep : hget g2 i = hget (addRefOpt h2 pr) i := by
        rw [hg2, Raddr']
        exact addRefOpt_congr_region r
          (fun j hj1 hj2 => A2 j (by omega)) i hi1 (by omega)
      rw [hstep, Raddr']
    obtain ⟨Creg, Cout, Clen⟩ :=
      @bump_unbump α r h2 g5 (h.length + l.size) g5.length F2 hmidR
        (by rw [Blen]; omega)
    have hg6eq : freeN g5.length (addrOf (h.length + l.size) r) g5 =
        destroy g5 pr := by
      rw [Raddr']; rfl
    rw [hg6eq] at Creg Cout Clen
    set g6 := destroy g5 pr with hg6
    have Glen : g6.length = h.length + l.size + r.size + 1 := by
      rw [Clen, Blen, D3, hrootA]
    refine ⟨?_, ?_, ?_, ?_⟩
    · show g6.length = h.length + (BinTree.node l e r).size
      rw [Glen, hszn]
      omega
    · intro i hi
      show hget g6 i = hget h i
      rw [Cout i (by omega), Bout i (by omega), D2 i (by omega),
        C1 i (by omega), B2 i (by omega), A2 i (by omega),
        Rpres i (by omega), Lpres i hi]
    · show some g2.length = addrOf h.length (BinTree.node l e r)
      rw [show addrOf h.length (BinTree.node l e r) =
        some (h.length + l.size + r.size) from rfl, hrootA]
    · show encodes g6 h.length (BinTree.node l e r)
      refine ⟨?_, ?_, ?_⟩
      · show hget g6 (h.length + l.size + r.size) =
          some ⟨e, addrOf h.length l, addrOf (h.length + l.size) r, 1⟩
        rw [Cout _ (by omega), Bout _ (by omega), ← hrootA, D1, Laddr, Raddr']
      · refine encodes_congr (fun i hi1 hi2 => ?_) F1
        rw [Cout i (by omega)]
        exact Breg i hi1 hi2
      · exact encodes_congr (fun i hi1 hi2 => Creg i hi1 hi2) F2

end RC

namespace RC

variable {α : Type}

/-- After `BinTree t1(l, e, r)` (freshly built), `BinTree t2 = t1.left()`,
and destruction of `t1`: the shared left subtree is not freed — `t2` still
decodes to exactly `l`, and `elem()`/`left()`/`right()` on `t2` succeed
with the original values. -/
theorem scenario_spec (l : BinTree α) (e : α) (r : BinTree α)
    (hl : l ≠ BinTree.nil) :
    (scenarioHeap l e r).2 = addrOf 0 l ∧
    readT l.size (scenarioHeap l e r).1 (addrOf 0 l) = some l ∧
    elemOp (scenarioHeap l e r).1 (addrOf 0 l) = l.rootElem ∧
    (leftOp (scenarioHeap l e r).1 (addrOf 0 l)).isSome = true ∧
    (rightOp (scenarioHeap l e r).1 (addrOf 0 l)).isSome = true := by
  obtain ⟨Hlen, _, Haddr, Henc⟩ := build_spec (BinTree.node l e r)
    ([] : Heap α)
  set h0 := (build (BinTree.node l e r) ([] : Heap α)).1 with hh0
  obtain ⟨hroot, hencl, hencr⟩ := Henc
  simp only [List.length_nil] at Haddr hroot hencl hencr
  have hlsize : 1 ≤ l.size := BinTree.size_pos_of_ne_nil hl
  have hszn : (BinTree.node l e r).size = l.size + r.size + 1 := rfl
  have Hlen' : h0.length = l.size + r.size + 1 := by
    rw [Hlen, hszn]
    simp
  have hleft : leftOp h0 (build (BinTree.node l e r) ([] : Heap α)).2 =
      some (addRefOpt h0 (addrOf 0 l), addrOf 0 l) := by
    rw [Haddr, show addrOf 0 (BinTree.node l e r) =
      some (0 + l.size + r.size) from rfl]
    simp only [leftOp, hroot]
  have hscen : scenarioHeap l e r =
      (destroy (addRefOpt h0 (addrOf 0 l))
        (build (BinTree.node l e r) ([] : Heap α)).2, addrOf 0 l) := by
    rw [scenarioHeap]
    rw [hleft]
  set h1 := addRefOpt h0 (addrOf 0 l) with hh1
  have h1len : h1.length = l.size + r.size + 1 := by
    rw [hh1, length_addRefOpt, Hlen']
  have h1out : ∀ i, (i < 0 ∨ 0 + l.size ≤ i) → hget h1 i = hget h0 i :=
    fun i hi => addRefOpt_addrOf_outside l h0 0 i hi
  have hroot1 : hget h1 (0 + l.size + r.size) =
      some ⟨e, addrOf 0 l, addrOf (0 + l.size) r, 1⟩ := by
    rw [h1out _ (by omega)]
    exact hroot
  have hdest : destroy h1 (build (BinTree.node l e r) ([] : Heap α)).2 =
      freeN ((l.size + r.size) + 1) (some (0 + l.size + r.size)) h1 := by
    rw [show destroy h1 (build (BinTree.node l e r) ([] : Heap α)).2 =
      freeN h1.length (build (BinTree.node l e r) ([] : Heap α)).2 h1
      from rfl, h1len, Haddr]
    rfl
  have hstep : freeN ((l.size + r.size) + 1) (some (0 + l.size + r.size)) h1 =
      hset
        (freeN (l.size + r.size) (addrOf (0 + l.size) r)
          (freeN (l.size + r.size) (addrOf 0 l)
            (hset h1 (0 + l.size + r.size)
              (some ⟨e, addrOf 0 l, addrOf (0 + l.size) r, 0⟩))))
        (0 + l.size + r.size) none := by
    simp only [freeN, hroot1]
    rw [if_pos trivial]
  set hA := hset h1 (0 + l.size + r.size)
    (some (⟨e, addrOf 0 l, addrOf (0 + l.size) r, 0⟩ : NodeR α)) with hhA
  have hAne : ∀ i, i ≠ 0 + l.size + r.size → hget hA i = hget h1 i :=
    fun i hi => hget_hset_ne h1 _ (fun hc => hi hc.symm)
  have hAmid : ∀ i, 0 ≤ i → i < 0 + l.size →
      hget hA i = hget (addRefOpt h0 (addrOf 0 l)) i := by
    intro i _ hi2
    rw [hAne i (by omega)]
  obtain ⟨Breg, Bout, Blen⟩ :=
    @bump_unbump α l h0 hA 0 (l.size + r.size) hencl hAmid (by omega)
  set hB := freeN (l.size + r.size) (addrOf 0 l) hA with hhB
  have hencrB : encodes hB (0 + l.size) r := by
    refine encodes_congr (fun i hi1 hi2 => ?_) hencr
    rw [Bout i (by omega), hAne i (by omega), h1out i (by omega)]
  obtain ⟨Creg, Cout, Clen⟩ := freeN_region hB (0 + l.size)
    (l.size + r.size) hencrB (by omega)
  set hC := freeN (l.size + r.size) (addrOf (0 + l.size) r) hB with hhC
  have hfinal : ∀ i, 0 ≤ i → i < 0 + l.size →
      hget (hset hC (0 + l.size + r.size) none) i = hget h0 i := by
    intro i hi1 hi2
    rw [hget_hset_ne hC _ (by omega), Cout i (by omega), Breg i hi1 hi2]
  have hencfin : encodes (hset hC (0 + l.size + r.size) none) 0 l :=
    encodes_congr hfinal hencl
  have hheap : (scenarioHeap l e r).1 =
      hset hC (0 + l.size + r.size) none := by
    rw [hscen]
    show destroy h1 (build (BinTree.node l e r) ([] : Heap α)).2 = _
    rw [hdest, hstep, hhC, hhB, hhA]
  have hptr : (scenarioHeap l e r).2 = addrOf 0 l := by rw [hscen]
  refine ⟨hptr, ?_, ?_, ?_, ?_⟩
  · rw [hheap]
    exact readT_encodes _ 0 l.size hencfin (le_refl _)
  · rw [hheap]
    cases l with
    | nil => exact absurd rfl hl
    | node ll el lr =>
      obtain ⟨hrootl, _, _⟩ := hencfin
      rw [show addrOf 0 (BinTree.node ll el lr) =
        some (0 + ll.size + lr.size) from rfl]
      rw [elemOp, hrootl]
      rfl
  · rw [hheap]
    cases l with
    | nil => exact absurd rfl hl
    | node ll el lr =>
      obtain ⟨hrootl, _, _⟩ := hencfin
      rw [show addrOf 0 (BinTree.node ll el lr) =
        some (0 + ll.size + lr.size) from rfl]
      rw [leftOp, hrootl]
      rfl
  · rw [hheap]
    cases l with
    | nil => exact absurd rfl hl
    | node ll el lr =>
      obtain ⟨hrootl, _, _⟩ := hencfin
      rw [show addrOf 0 (BinTree.node ll el lr) =
        some (0 + ll.size + lr.size) from rfl]
      rw [rightOp, hrootl]
      rfl

end RC

/-- C1: for the manual-refcount `BinTree`, (a) aliasing a node through a
new handle increments its reference count; (b) releasing a handle to a
node with other references left decrements the count and reclaims nothing;
(c) when the count reaches zero the node and its descendants are reclaimed
(exactly the subtree's cells are freed and nothing else changes); and (d)
for every tree `t1 = (l, e, r)` with non-empty left child, after
`BinTree t2 = t1.left()` and destruction of `t1`, `t2` still decodes to
the original subtree `l`, so `t2.elem()` and `t2.left()`/`t2.right()`
succeed with the original values. -/
theorem claim_C1_refcount_sharing (α : Type) :
    (∀ (h : RC.Heap α) (a : Nat) (n : RC.NodeR α), RC.hget h a = some n →
      RC.hget (RC.addRef h a) a = some {n with refs := n.refs + 1}) ∧
    (∀ (h : RC.Heap α) (a : Nat) (n : RC.NodeR α) (fuel : Nat),
      RC.hget h a = some n → 2 ≤ n.refs → 1 ≤ fuel →
      RC.freeN fuel (some a) h =
        RC.hset h a (some {n with refs := n.refs - 1})) ∧
    (∀ (h : RC.Heap α) (base fuel : Nat) (t : BinTree α),
      RC.encodes h base t → t.size ≤ fuel →
      (∀ i, base ≤ i → i < base + t.size →
        RC.hget (RC.freeN fuel (RC.addrOf base t) h) i = none) ∧
      (∀ i, (i < base ∨ base + t.size ≤ i) →
        RC.hget (RC.freeN fuel (RC.addrOf base t) h) i = RC.hget h i)) ∧
    (∀ (l : BinTree α) (e : α) (r : BinTree α), l ≠ BinTree.nil →
      (RC.scenarioHeap l e r).2 = RC.addrOf 0 l ∧
      RC.readT l.size (RC.scenarioHeap l e r).1 (RC.addrOf 0 l) = some l ∧
      RC.elemOp (RC.scenarioHeap l e r).1 (RC.addrOf 0 l) = l.rootElem ∧
      (RC.leftOp (RC.scenarioHeap l e r).1 (RC.addrOf 0 l)).isSome = true ∧
      (RC.rightOp (RC.scenarioHeap l e r).1
        (RC.addrOf 0 l)).isSome = true) := by
  refine ⟨?_, ?_, ?_, ?_⟩
  · intro h a n hn
    exact RC.hget_addRef_self hn
  · intro h a n fuel hn hrefs hfuel
    exact RC.freeN_decrement hn hrefs hfuel
  · intro h base fuel t henc hfuel
    obtain ⟨hreg, hout, _⟩ := RC.freeN_region h base fuel henc hfuel
    exact ⟨hreg, hout⟩
  · intro l e r hl
    exact RC.scenario_spec l e r hl

/-- Witness for C1: the scenario applied at the concrete tree
`t1 = ((2, 5, 7), 1, (3))` whose left child is the three-node tree rooted
at 5, plus the aliasing-increments conjunct at a concrete one-cell heap. -/
theorem claim_C1_refcount_sharing_witness :
    (RC.hget ([some ⟨9, none, none, 1⟩] : RC.Heap Nat) 0 =
        some (⟨9, none, none, 1⟩ : RC.NodeR Nat) ∧
      RC.hget (RC.addRef ([some ⟨9, none, none, 1⟩] : RC.Heap Nat) 0) 0 =
        some (⟨9, none, none, 2⟩ : RC.NodeR Nat)) ∧
    ((BinTree.node (BinTree.node BinTree.nil 2 BinTree.nil) 5
        (BinTree.node BinTree.nil 7 BinTree.nil) : BinTree Nat) ≠
      BinTree.nil ∧
    (RC.scenarioHeap (BinTree.node (BinTree.node BinTree.nil 2 BinTree.nil) 5
        (BinTree.node BinTree.nil 7 BinTree.nil)) 1
        (BinTree.node BinTree.nil 3 BinTree.nil)).2 =
      RC.addrOf 0 (BinTree.node (BinTree.node BinTree.nil 2 BinTree.nil) 5
        (BinTree.node BinTree.nil 7 BinTree.nil)) ∧
    RC.readT (BinTree.node (BinTree.node BinTree.nil 2 BinTree.nil) 5
        (BinTree.node BinTree.nil 7 BinTree.nil) : BinTree Nat).size
        (RC.scenarioHeap (BinTree.node (BinTree.node BinTree.nil 2
          BinTree.nil) 5 (BinTree.node BinTree.nil 7 BinTree.nil)) 1
          (BinTree.node BinTree.nil 3 BinTree.nil)).1
        (RC.addrOf 0 (BinTree.node (BinTree.node BinTree.nil 2 BinTree.nil) 5
          (BinTree.node BinTree.nil 7 BinTree.nil))) =
      some (BinTree.node (BinTree.node BinTree.nil 2 BinTree.nil) 5
        (BinTree.node BinTree.nil 7 BinTree.nil)) ∧
    RC.elemOp (RC.scenarioHeap (BinTree.node (BinTree.node BinTree.nil 2
        BinTree.nil) 5 (BinTree.node BinTree.nil 7 BinTree.nil)) 1
        (BinTree.node BinTree.nil 3 BinTree.nil)).1
        (RC.addrOf 0 (BinTree.node (BinTree.node BinTree.nil 2 BinTree.nil) 5
          (BinTree.node BinTree.nil 7 BinTree.nil))) =
      (BinTree.node (BinTree.node BinTree.nil 2 BinTree.nil) 5
        (BinTree.node BinTree.nil 7 BinTree.nil) : BinTree Nat).rootElem ∧
    (RC.leftOp (RC.scenarioHeap (BinTree.node (BinTree.node BinTree.nil 2
        BinTree.nil) 5 (BinTree.node BinTree.nil 7 BinTree.nil)) 1
        (BinTree.node BinTree.nil 3 BinTree.nil)).1
        (RC.addrOf 0 (BinTree.node (BinTree.node BinTree.nil 2 BinTree.nil) 5
          (BinTree.node BinTree.nil 7 BinTree.nil)))).isSome = true ∧
    (RC.rightOp (RC.scenarioHeap (BinTree.node (BinTree.node BinTree.nil 2
        BinTree.nil) 5 (BinTree.node BinTree.nil 7 BinTree.nil)) 1
        (BinTree.node BinTree.nil 3 BinTree.nil)).1
        (RC.addrOf 0 (BinTree.node (BinTree.node BinTree.nil 2 BinTree.nil) 5
          (BinTree.node BinTree.nil 7 BinTree.nil)))).isSome = true) :=
  ⟨⟨by decide, (claim_C1_refcount_sharing Nat).1
      [some ⟨9, none, none, 1⟩] 0 ⟨9, none, none, 1⟩ (by decide)⟩,
    by decide,
    (claim_C1_refcount_sharing Nat).2.2.2
      (BinTree.node (BinTree.node BinTree.nil 2 BinTree.nil) 5
        (BinTree.node BinTree.nil 7 BinTree.nil)) 1
      (BinTree.node BinTree.nil 3 BinTree.nil) (by decide)⟩
